import Mathlib

/-!
Verification of the split-sequence clustering module (`cluster.py`) of the
`concept_formation` repository.

The module drives a Cobweb-style concept tree through successive splits and
reads off flat cluster labelings.  The concept tree itself (`ifit`,
`categorize`, `cu_for_split`, `category_utility`, `split`, node fields) is an
external collaborator that is not part of the visible source; following the
spec's data model (§3, §6, §9) it is embedded as an arena of nodes indexed by
natural numbers, and the tree-supplied scoring and insertion functions are
parameters (`TreeOps`).  Python floats are modelled as rationals, Python
mutation as explicit state passing, and the lazy generator as the list of the
clusterings it yields.
-/

/-- Modelled from the spec (§3): a node of the external concept tree.
`concept_id` is a stable identifier unique within a tree, `parent` an optional
back-reference (arena index), `children` the ordered owned child indices. -/
structure ConceptNode where
  concept_id : String
  parent : Option Nat
  children : List Nat
deriving DecidableEq, Repr

/-- Modelled from the spec (§3, §9): the external concept tree, stored
arena-style as an indexed table of nodes plus the root's index. -/
structure ConceptTree where
  nodes : List ConceptNode
  root : Nat
deriving DecidableEq, Repr

instance : Inhabited ConceptTree := ⟨⟨[], 0⟩⟩

/-- Parent index of node `x` (none for the root, detached or out-of-range nodes). -/
def parentOf (t : ConceptTree) (x : Nat) : Option Nat :=
  (t.nodes[x]?).bind ConceptNode.parent

/-- Child index list of node `x` (empty for leaves and out-of-range nodes). -/
def childrenOf (t : ConceptTree) (x : Nat) : List Nat :=
  ((t.nodes[x]?).map ConceptNode.children).getD []

/-- Concept id of node `x` (empty string out of range). -/
def cidOf (t : ConceptTree) (x : Nat) : String :=
  ((t.nodes[x]?).map ConceptNode.concept_id).getD ""

/-- Modelled from the spec (§6): the operations the clustering driver requires
from the external tree collaborator.  `ifit` inserts an instance, possibly
mutating the tree, and returns the leaf it settled into; `categorize` locates
the best-fit leaf without mutating; `cu_for_split c` is the hypothetical
category utility were `c` split, `category_utility` the current one (both
called on the root in the source). -/
structure TreeOps (Inst : Type) where
  ifit : ConceptTree → Inst → ConceptTree × Nat
  categorize : ConceptTree → Inst → Nat
  cu_for_split : ConceptTree → Nat → ℚ
  category_utility : ConceptTree → ℚ

/-- The upward walk of cluster.py lines 59-60: `while (c.parent and
c.parent.parent): c = c.parent`.  The Python loop terminates because parent
chains are finite; here a fuel argument (instantiated with the arena size,
which bounds every chain in a well-formed tree) makes the recursion
structural. -/
def walkUp (t : ConceptTree) : Nat → Nat → Nat
  | 0, c => c
  | fuel + 1, c =>
    match parentOf t c with
    | none => c
    | some p =>
      match parentOf t p with
      | none => c
      | some _ => walkUp t fuel p

/-- Lines 57-61: one label per recorded leaf reference, in order; each label is
"Concept" ++ the id of the node reached by the upward walk. -/
def labelsOf (t : ConceptTree) (refs : List Nat) : List String :=
  refs.map (fun r => "Concept" ++ cidOf t (walkUp t t.nodes.length r))

/-- Line 64-66: the comprehension `[(root.cu_for_split(c) - root.category_utility(), i, c)
for i, c in enumerate(root.children) if c.children]`, written with an explicit
running index in place of `enumerate`. -/
def candidatesFrom (ops : TreeOps Inst) (t : ConceptTree) :
    Nat → List Nat → List (ℚ × Nat × Nat)
  | _, [] => []
  | i, c :: rest =>
    (if childrenOf t c = [] then []
     else [(ops.cu_for_split t c - ops.category_utility t, i, c)]) ++
      candidatesFrom ops t (i + 1) rest

/-- The lexicographic order used by Python's `sorted` on the triples of line
64: first the utility gain, then the enumeration index.  The third (node)
component is never compared because enumeration indices are distinct. -/
def canLe (a b : ℚ × Nat × Nat) : Prop :=
  a.1 < b.1 ∨ (a.1 = b.1 ∧ a.2.1 ≤ b.2.1)

instance : DecidableRel canLe := fun a b =>
  inferInstanceAs (Decidable (_ ∨ _))

instance : IsTotal (ℚ × Nat × Nat) canLe where
  total a b := by
    rcases lt_trichotomy a.1 b.1 with h | h | h
    · exact Or.inl (Or.inl h)
    · rcases Nat.le_total a.2.1 b.2.1 with h2 | h2
      · exact Or.inl (Or.inr ⟨h, h2⟩)
      · exact Or.inr (Or.inr ⟨h.symm, h2⟩)
    · exact Or.inr (Or.inl h)

instance : IsTrans (ℚ × Nat × Nat) canLe where
  trans a b c hab hbc := by
    rcases hab with h1 | ⟨h1, h1b⟩ <;> rcases hbc with h2 | ⟨h2, h2b⟩
    · exact Or.inl (h1.trans h2)
    · exact Or.inl (h2 ▸ h1)
    · exact Or.inl (h1 ▸ h2)
    · exact Or.inr ⟨h1.trans h2, h1b.trans h2b⟩

/-- Line 64: `split_cus = sorted([...])`.  Python's `sorted` is a stable sort;
insertion sort realizes the same function. -/
def split_cus (ops : TreeOps Inst) (t : ConceptTree) : List (ℚ × Nat × Nat) :=
  List.insertionSort canLe (candidatesFrom ops t 0 (childrenOf t t.root))

/-- Lines 70-74: take `split_cus[-1]` (the maximum of the sort) and extract the
node to split, or `none` when there is no splittable child. -/
def selectSplit (ops : TreeOps Inst) (t : ConceptTree) : Option Nat :=
  ((split_cus ops t).getLast?).map (fun x => x.2.2)

/-- Replace the node at one arena index by applying `f` to it. -/
def modifyAt (f : ConceptNode → ConceptNode) : List ConceptNode → Nat → List ConceptNode
  | [], _ => []
  | n :: ns, 0 => f n :: ns
  | n :: ns, i + 1 => n :: modifyAt f ns i

/-- Modelled from the spec (§6, glossary): `root.split(node)` replaces the
selected child by its own children — the grandchildren are promoted to the
root's child list (at the end, their parent pointers re-aimed at the root) and
the selected node is detached. -/
def split (t : ConceptTree) (c : Nat) : ConceptTree :=
  let cs := childrenOf t c
  let newRootChildren := (childrenOf t t.root).erase c ++ cs
  let ns1 := cs.foldl (fun ns x => modifyAt (fun n => { n with parent := some t.root }) ns x) t.nodes
  let ns2 := modifyAt (fun n => { n with children := newRootChildren }) ns1 t.root
  let ns3 := modifyAt (fun n => { n with parent := none, children := [] }) ns2 c
  { nodes := ns3, root := t.root }

/-- Python's `copy.deepcopy` (line 47): in this pure embedding a tree value is
immutable and shares no mutable state, so the fully independent copy is the
value itself. -/
def deepcopy (t : ConceptTree) : ConceptTree := t

/-- Lines 49-52: insert every instance (`ifit`, threading the mutated tree) or
categorize it (`categorize`, tree untouched), recording the resulting node
reference per instance, in order. -/
def fitPhase (ops : TreeOps Inst) (t : ConceptTree) (instances : List Inst) (mod : Bool) :
    ConceptTree × List Nat :=
  if mod then
    instances.foldl (fun acc inst =>
      let fr := ops.ifit acc.1 inst
      (fr.1, acc.2 ++ [fr.2])) (t, [])
  else (t, instances.map (ops.categorize t))

/-- The split loop, lines 54-76.  `n` is `nth_split`; the fuel counts the
remaining iterations of `range(1, maxsplit+1)`.  Returns the final state of
the (copied) tree together with the list of yielded clusterings. -/
def cluster_iter_go (ops : TreeOps Inst) (refs : List Nat) (minsplit : Nat) :
    ConceptTree → Nat → Nat → ConceptTree × List (List String)
  | t, _, 0 => (t, [])
  | t, n, fuel + 1 =>
    let emitted := if minsplit ≤ n then [labelsOf t refs] else []
    match selectSplit ops t with
    | none => (t, emitted)
    | some c =>
      let rest := cluster_iter_go ops refs minsplit (split t c) (n + 1) fuel
      (rest.1, emitted ++ rest.2)

/-- `cluster_iter` (lines 14-76): validate the arguments, deep-copy the tree,
fit the instances, then yield one clustering per split count from `minsplit`
to `maxsplit` (stopping early when no root child is splittable).  The lazy
generator is embedded as the list of the clusterings it yields; a `ValueError`
as the `Except.error` case. -/
def cluster_iter (ops : TreeOps Inst) (tree : ConceptTree) (instances : List Inst)
    (minsplit maxsplit : Int) (mod : Bool) : Except String (List (List String)) :=
  if minsplit < 1 then Except.error "minsplit must be >= 1"
  else if minsplit > maxsplit then Except.error "maxsplit must be >= minsplit"
  else
    let copied := deepcopy tree
    let fitted := fitPhase ops copied instances mod
    Except.ok (cluster_iter_go ops fitted.2 minsplit.toNat fitted.1 1 maxsplit.toNat).2

/-- `cluster` (lines 78-98): eagerly materializes `cluster_iter`; in this
embedding the iterator already is its list of elements. -/
def cluster (ops : TreeOps Inst) (tree : ConceptTree) (instances : List Inst)
    (minsplit maxsplit : Int) (mod : Bool) : Except String (List (List String)) :=
  cluster_iter ops tree instances minsplit maxsplit mod

/-- The `for c in cluster_iter(...)` loop of `k_cluster` (lines 128-131):
adopt each clustering whose number of distinct labels is at most `k`, stop at
the first one exceeding `k`. -/
def adoptLoop (k : Int) : List String → List (List String) → List String
  | acc, [] => acc
  | acc, c :: rest =>
    if ((c.toFinset.card : Int)) > k then acc else adoptLoop k c rest

/-- `k_cluster` (lines 100-133): reject `k < 2`, start from the trivial
root labeling, and run the adoption loop over the split sequence produced with
the source's default arguments `minsplit=1, maxsplit=100000`. -/
def k_cluster (ops : TreeOps Inst) (tree : ConceptTree) (instances : List Inst)
    (k : Int) (mod : Bool) : Except String (List String) :=
  if k < 2 then
    Except.error "k must be >=2, all nodes in Cobweb are guaranteed to have at least 2 children."
  else
    match cluster_iter ops tree instances 1 100000 mod with
    | Except.error e => Except.error e
    | Except.ok seq =>
      Except.ok (adoptLoop k (instances.map (fun _ => "Concept" ++ cidOf tree tree.root)) seq)

/-- Modelled from the spec (§4.2): the Bounded-K Selector as specified, with an
unbounded `maxsplit`.  A split sequence can perform at most one split per
arena node (a split detaches its node, and a detached node never regains
children), so running the driver with `maxsplit = nodes.length + 1` realizes
the unbounded stream; this definition differs from `k_cluster` exactly in
that the source's default cap `maxsplit=100000` is lifted. -/
def k_cluster_unbounded (ops : TreeOps Inst) (tree : ConceptTree) (instances : List Inst)
    (k : Int) (mod : Bool) : Except String (List String) :=
  if k < 2 then
    Except.error "k must be >=2, all nodes in Cobweb are guaranteed to have at least 2 children."
  else
    match cluster_iter ops tree instances 1 ((tree.nodes.length : Int) + 1) mod with
    | Except.error e => Except.error e
    | Except.ok seq =>
      Except.ok (adoptLoop k (instances.map (fun _ => "Concept" ++ cidOf tree tree.root)) seq)

/-- `cluster_iter` with the caller's heap made explicit: the store holds the
caller's tree objects, `treeRef` names the one passed in.  The deep copy is a
fresh cell appended to the store; every mutation of the run (fitting with
`mod`, splitting) targets that cell, so the caller's cell is written back
untouched.  Argument validation happens before the copy is made. -/
def cluster_iter_impl (ops : TreeOps Inst) (store : List ConceptTree) (treeRef : Nat)
    (instances : List Inst) (minsplit maxsplit : Int) (mod : Bool) :
    List ConceptTree × Except String (List (List String)) :=
  if minsplit < 1 then (store, Except.error "minsplit must be >= 1")
  else if minsplit > maxsplit then (store, Except.error "maxsplit must be >= minsplit")
  else
    let copied := deepcopy (store.getD treeRef default)
    let fitted := fitPhase ops copied instances mod
    let result := cluster_iter_go ops fitted.2 minsplit.toNat fitted.1 1 maxsplit.toNat
    (store ++ [result.1], Except.ok result.2)

/-- The chain collection of `depth_labels` lines 160-168: follow parent links
from a node, recording "Concept" ++ id at each step, including the final
parentless node.  Fuel as in `walkUp`. -/
def collectChain (t : ConceptTree) : Nat → Nat → List String
  | 0, r => ["Concept" ++ cidOf t r]
  | fuel + 1, r =>
    match parentOf t r with
    | none => ["Concept" ++ cidOf t r]
    | some p => ("Concept" ++ cidOf t r) :: collectChain t fuel p

/-- Lines 152-171 of `depth_labels`: fit/categorize the instances (no deep
copy is made by `depth_labels`), then collect each instance's leaf-to-root
label chain. -/
def chainsOf (ops : TreeOps Inst) (t : ConceptTree) (instances : List Inst) (mod : Bool) :
    ConceptTree × List (List String) :=
  let fitted := fitPhase ops t instances mod
  (fitted.1, fitted.2.map (fun r => collectChain fitted.1 fitted.1.nodes.length r))

/-- Lines 158-171: `max_depth`, the longest collected chain. -/
def maxDepthOf (chains : List (List String)) : Nat :=
  chains.foldl (fun m l => max m l.length) 0

/-- Lines 173-177: reverse a chain (root first) and pad it to `maxd` by
repeating its last — deepest — label. -/
def padChain (maxd : Nat) (labs : List String) : List String :=
  let rl := labs.reverse
  rl ++ List.replicate (maxd - rl.length) (rl.getLastD "")

/-- `depth_labels` (lines 135-186).  The transposition loop indexes
`instance_labels[0]`, which raises `IndexError` when the instance list is
empty; that failure is the `none` case. -/
def depth_labels (ops : TreeOps Inst) (t : ConceptTree) (instances : List Inst) (mod : Bool) :
    Option (List (List String)) :=
  let chains := (chainsOf ops t instances mod).2
  let maxd := maxDepthOf chains
  let padded := chains.map (padChain maxd)
  match padded with
  | [] => none
  | f0 :: _ => some ((List.range f0.length).map (fun d => padded.map (fun f => f.getD d "")))

/-- Well-formedness of a concept tree, as the spec's data model supplies it
(§3): in-range root with no parent, parent/child pointers mutually coherent
and in range, concept ids unique within the tree, duplicate-free child lists,
parentless nodes are the root or detached leaves, and parent links are
well-founded (witnessed by a bounded rank function decreasing upward). -/
structure WF (t : ConceptTree) : Prop where
  root_lt : t.root < t.nodes.length
  root_parent : parentOf t t.root = none
  parent_of_child : ∀ p, p < t.nodes.length → ∀ x ∈ childrenOf t p, parentOf t x = some p
  parent_bound : ∀ x, x < t.nodes.length → ∀ p, parentOf t x = some p → p < t.nodes.length
  child_of_parent : ∀ x, x < t.nodes.length → ∀ p, p < t.nodes.length →
    parentOf t x = some p → x ∈ childrenOf t p
  cid_inj : ∀ x, x < t.nodes.length → ∀ y, y < t.nodes.length → x ≠ y → cidOf t x ≠ cidOf t y
  children_nodup : ∀ p, p < t.nodes.length → (childrenOf t p).Nodup
  parentless : ∀ x, x < t.nodes.length → parentOf t x = none →
    x = t.root ∨ childrenOf t x = []
  ranked : ∃ rank : Nat → Nat, (∀ x, x < t.nodes.length → rank x < t.nodes.length) ∧
    (∀ x, x < t.nodes.length → ∀ p, p < t.nodes.length → parentOf t x = some p →
      rank p < rank x)

/-- One parent-link step (the relation whose reflexive-transitive closure is
"is an ancestor of, following parent links"). -/
def ParentStep (t : ConceptTree) (a b : Nat) : Prop := parentOf t a = some b

/-- Ancestor reachability along parent links. -/
def Reaches (t : ConceptTree) : Nat → Nat → Prop :=
  Relation.ReflTransGen (ParentStep t)

/-- One step of the running-maximum fold realizing the spec's selection rule:
replace the current best exactly when the new candidate's key
(utility gain, child index) is strictly larger. -/
def argmaxStep (acc : Option (ℚ × Nat × Nat)) (x : ℚ × Nat × Nat) :
    Option (ℚ × Nat × Nat) :=
  match acc with
  | none => some x
  | some b => if b.1 < x.1 ∨ (b.1 = x.1 ∧ b.2.1 < x.2.1) then some x else some b

/-- The candidate with the lexicographically maximal key `(utility gain,
child index)` — on equal gains the later index wins. -/
def argmaxCand (l : List (ℚ × Nat × Nat)) : Option (ℚ × Nat × Nat) :=
  l.foldl argmaxStep none

/-- Modelled from the spec (§4.1 step b): "Select the child with the maximum
value; ties broken by the child's position in the root's child ordering", as a
direct argmax over the candidates rather than a sort. -/
def argmaxChild (ops : TreeOps Inst) (t : ConceptTree) : Option Nat :=
  (argmaxCand (candidatesFrom ops t 0 (childrenOf t t.root))).map (fun x => x.2.2)

/-- One iteration of the loop body as a relation on tree states: the selected
child is handed to `split`. -/
def SplitStep (ops : TreeOps Inst) (a b : ConceptTree) : Prop :=
  ∃ c, selectSplit ops a = some c ∧ b = split a c

/-- Tree states reachable from the initial fitted tree by loop iterations. -/
def SplitReach (ops : TreeOps Inst) : ConceptTree → ConceptTree → Prop :=
  Relation.ReflTransGen (SplitStep ops)

/-- Node `i` of the star family: node 0 is the root; for `1 ≤ i ≤ M`, node `i`
is a root child owning the leaf pair `M+2i-1, M+2i` until it is split
(children are split in the order `M, M-1, ...`, so after `k` splits exactly
the nodes `i > M - k` are detached); nodes above `M` are the leaves. -/
def starNode (M k i : Nat) : ConceptNode :=
  if i = 0 then
    { concept_id := toString i, parent := none,
      children := (List.range (M - k)).map (fun j => j + 1) ++
        (List.range k).flatMap (fun j => [3*M - 2*j - 1, 3*M - 2*j]) }
  else if i ≤ M then
    (if M - k < i then { concept_id := toString i, parent := none, children := [] }
     else { concept_id := toString i, parent := some 0,
            children := [M + 2*i - 1, M + 2*i] })
  else
    { concept_id := toString i,
      parent := if M - k < (i - M + 1) / 2 then some 0 else some ((i - M + 1) / 2),
      children := [] }

/-- The star-of-pairs tree after `k` splits. -/
def starTree (M k : Nat) : ConceptTree :=
  { nodes := (List.range (3*M + 1)).map (starNode M k), root := 0 }

/-- Concrete tree operations for the star family: instances are categorized to
their own index and all utility scores are zero. -/
def starOps : TreeOps Nat :=
  { ifit := fun t i => (t, i), categorize := fun _ i => i,
    cu_for_split := fun _ _ => 0, category_utility := fun _ => 0 }

/-- A five-node concept tree: the root "r" has children "a" (with leaf
children "c", "d") and leaf "b". -/
def wTree : ConceptTree :=
  { nodes := [⟨"r", none, [1, 2]⟩, ⟨"a", some 0, [3, 4]⟩, ⟨"b", some 0, []⟩,
      ⟨"c", some 1, []⟩, ⟨"d", some 1, []⟩],
    root := 0 }

/-! ### Basic facts about the arena accessors -/

theorem parentOf_of_ge (t : ConceptTree) (x : Nat) (h : t.nodes.length ≤ x) :
    parentOf t x = none := by
  simp [parentOf, List.getElem?_eq_none h]

theorem lt_of_parentOf_eq_some {t : ConceptTree} {x p : Nat}
    (h : parentOf t x = some p) : x < t.nodes.length := by
  by_contra hx
  rw [parentOf_of_ge t x (Nat.le_of_not_lt hx)] at h
  exact Option.noConfusion h

theorem childrenOf_of_ge (t : ConceptTree) (x : Nat) (h : t.nodes.length ≤ x) :
    childrenOf t x = [] := by
  simp [childrenOf, List.getElem?_eq_none h]

theorem mem_children_lt {t : ConceptTree} (wf : WF t) {p x : Nat}
    (hp : p < t.nodes.length) (hx : x ∈ childrenOf t p) : x < t.nodes.length :=
  lt_of_parentOf_eq_some (wf.parent_of_child p hp x hx)

theorem parent_lt {t : ConceptTree} (wf : WF t) {x p : Nat}
    (h : parentOf t x = some p) : p < t.nodes.length :=
  wf.parent_bound x (lt_of_parentOf_eq_some h) p h

theorem mem_children_of_parent {t : ConceptTree} (wf : WF t) {x p : Nat}
    (h : parentOf t x = some p) : x ∈ childrenOf t p :=
  wf.child_of_parent x (lt_of_parentOf_eq_some h) p (parent_lt wf h) h

/-! ### modifyAt -/

theorem length_modifyAt (f : ConceptNode → ConceptNode) :
    ∀ (l : List ConceptNode) (i : Nat), (modifyAt f l i).length = l.length
  | [], _ => rfl
  | _ :: ns, 0 => by simp [modifyAt]
  | _ :: ns, i + 1 => by simp [modifyAt, length_modifyAt f ns i]

theorem getElem?_modifyAt (f : ConceptNode → ConceptNode) :
    ∀ (l : List ConceptNode) (i j : Nat),
      (modifyAt f l i)[j]? = if i = j then (l[j]?).map f else l[j]?
  | [], i, j => by cases i <;> cases j <;> simp [modifyAt]
  | n :: ns, 0, 0 => by simp [modifyAt]
  | n :: ns, 0, j + 1 => by simp [modifyAt]
  | n :: ns, i + 1, 0 => by simp [modifyAt]
  | n :: ns, i + 1, j + 1 => by
    simp only [modifyAt, List.getElem?_cons_succ]
    rw [getElem?_modifyAt f ns i j]
    by_cases h : i = j <;> simp [h]

/-- The reparenting fold of `split`: pointwise effect on the arena. -/
theorem getElem?_reparentFold (t : ConceptTree) :
    ∀ (cs : List Nat) (ns : List ConceptNode) (x : Nat),
      (cs.foldl (fun ns y => modifyAt (fun n => { n with parent := some t.root }) ns y) ns)[x]? =
        if x ∈ cs then (ns[x]?).map (fun n => { n with parent := some t.root }) else ns[x]?
  | [], ns, x => by simp
  | c0 :: cs, ns, x => by
    simp only [List.foldl_cons]
    rw [getElem?_reparentFold t cs _ x]
    by_cases hx : x ∈ c0 :: cs
    · simp only [hx, if_pos]
      by_cases h1 : x ∈ cs
      · simp only [h1, if_pos, getElem?_modifyAt]
        by_cases h0 : c0 = x
        · subst h0; cases ns[c0]? <;> simp
        · simp [h0]
      · have h0 : c0 = x := by
          rcases List.mem_cons.mp hx with h | h
          · exact h.symm
          · exact absurd h h1
        subst h0
        simp [h1, getElem?_modifyAt]
    · have h1 : x ∉ cs := fun h => hx (List.mem_cons_of_mem _ h)
      have h0 : c0 ≠ x := fun h => hx (h ▸ List.mem_cons_self _ _)
      simp [hx, h1, getElem?_modifyAt, h0]

/-! ### Pointwise characterization of `split` -/


theorem length_reparentFold (t : ConceptTree) :
    ∀ (cs : List Nat) (ns : List ConceptNode),
      (cs.foldl (fun ns y => modifyAt (fun n => { n with parent := some t.root }) ns y) ns).length =
        ns.length
  | [], ns => rfl
  | c0 :: cs, ns => by
    simp only [List.foldl_cons]
    rw [length_reparentFold t cs _, length_modifyAt]

theorem split_nodes_length (t : ConceptTree) (c : Nat) :
    (split t c).nodes.length = t.nodes.length := by
  simp only [split]
  rw [length_modifyAt, length_modifyAt, length_reparentFold]

theorem split_root (t : ConceptTree) (c : Nat) : (split t c).root = t.root := rfl

theorem parentOf_split (t : ConceptTree) (c x : Nat)
    (hcs : ∀ y ∈ childrenOf t c, y < t.nodes.length) :
    parentOf (split t c) x =
      if x = c then none
      else if x ∈ childrenOf t c then some t.root
      else parentOf t x := by
  have hsplit : (split t c).nodes[x]? =
      (modifyAt (fun n => { n with parent := none, children := [] })
        (modifyAt (fun n => { n with children := (childrenOf t t.root).erase c ++ childrenOf t c })
          ((childrenOf t c).foldl
            (fun ns y => modifyAt (fun n => { n with parent := some t.root }) ns y) t.nodes)
          t.root) c)[x]? := rfl
  rw [parentOf, hsplit, getElem?_modifyAt, getElem?_modifyAt, getElem?_reparentFold]
  by_cases h1 : c = x
  · rw [if_pos h1, if_pos h1.symm]
    by_cases h2 : t.root = x <;> by_cases h3 : x ∈ childrenOf t c <;>
      simp [h2, h3] <;> cases t.nodes[x]? <;> simp
  · have hxc : ¬ x = c := fun h => h1 h.symm
    by_cases h3 : x ∈ childrenOf t c
    · have hx : x < t.nodes.length := hcs x h3
      rw [List.getElem?_eq_getElem hx]
      by_cases h2 : t.root = x <;> simp [h1, hxc, h3, h2]
    · by_cases h2 : t.root = x <;> simp [h1, hxc, h3, h2, parentOf] <;>
        cases t.nodes[x]? <;> simp

theorem childrenOf_split (t : ConceptTree) (c x : Nat)
    (hroot : t.root < t.nodes.length) :
    childrenOf (split t c) x =
      if x = c then []
      else if x = t.root then (childrenOf t t.root).erase c ++ childrenOf t c
      else childrenOf t x := by
  have hsplit : (split t c).nodes[x]? =
      (modifyAt (fun n => { n with parent := none, children := [] })
        (modifyAt (fun n => { n with children := (childrenOf t t.root).erase c ++ childrenOf t c })
          ((childrenOf t c).foldl
            (fun ns y => modifyAt (fun n => { n with parent := some t.root }) ns y) t.nodes)
          t.root) c)[x]? := rfl
  rw [childrenOf, hsplit, getElem?_modifyAt, getElem?_modifyAt, getElem?_reparentFold]
  by_cases h1 : x = c
  · rw [if_pos h1, if_pos h1.symm]
    by_cases h2 : t.root = x
    · rw [if_pos h2]
      by_cases h3 : x ∈ childrenOf t c
      · rw [if_pos h3]; cases t.nodes[x]? <;> simp
      · rw [if_neg h3]; cases t.nodes[x]? <;> simp
    · rw [if_neg h2]
      by_cases h3 : x ∈ childrenOf t c
      · rw [if_pos h3]; cases t.nodes[x]? <;> simp
      · rw [if_neg h3]; cases t.nodes[x]? <;> simp
  · rw [if_neg h1, if_neg (fun h : c = x => h1 h.symm)]
    by_cases h2 : x = t.root
    · rw [if_pos h2, if_pos h2.symm]
      have hx : x < t.nodes.length := by rw [h2]; exact hroot
      rw [List.getElem?_eq_getElem hx]
      by_cases h3 : x ∈ childrenOf t c
      · rw [if_pos h3]; simp
      · rw [if_neg h3]; simp
    · rw [if_neg h2, if_neg (fun h : t.root = x => h2 h.symm)]
      by_cases h3 : x ∈ childrenOf t c
      · rw [if_pos h3]; cases hnx : t.nodes[x]? <;> simp [childrenOf, hnx]
      · rw [if_neg h3]; cases hnx : t.nodes[x]? <;> simp [childrenOf, hnx]

theorem cidOf_split (t : ConceptTree) (c x : Nat) :
    cidOf (split t c) x = cidOf t x := by
  have hsplit : (split t c).nodes[x]? =
      (modifyAt (fun n => { n with parent := none, children := [] })
        (modifyAt (fun n => { n with children := (childrenOf t t.root).erase c ++ childrenOf t c })
          ((childrenOf t c).foldl
            (fun ns y => modifyAt (fun n => { n with parent := some t.root }) ns y) t.nodes)
          t.root) c)[x]? := rfl
  rw [cidOf, hsplit, getElem?_modifyAt, getElem?_modifyAt, getElem?_reparentFold]
  cases hnx : t.nodes[x]? with
  | none => simp only [cidOf, hnx] <;> split_ifs <;> simp
  | some nd => simp only [cidOf, hnx] <;> split_ifs <;> simp

/-! ### The upward walk -/


theorem walkUp_stop1 {t : ConceptTree} {r : Nat} (hp : parentOf t r = none) (f : Nat) :
    walkUp t f r = r := by
  cases f <;> simp [walkUp, hp]

theorem walkUp_stop2 {t : ConceptTree} {r p : Nat} (hp : parentOf t r = some p)
    (hq : parentOf t p = none) (f : Nat) : walkUp t f r = r := by
  cases f <;> simp [walkUp, hp, hq]

theorem walkUp_congr {t : ConceptTree} (rank : Nat → Nat)
    (hdec : ∀ x p, parentOf t x = some p → rank p < rank x) :
    ∀ f1 f2 r, rank r < f1 → rank r < f2 → walkUp t f1 r = walkUp t f2 r := by
  intro f1
  induction f1 with
  | zero => intro f2 r h1; exact absurd h1 (Nat.not_lt_zero _)
  | succ g ih =>
    intro f2 r h1 h2
    cases hp : parentOf t r with
    | none => rw [walkUp_stop1 hp, walkUp_stop1 hp]
    | some p =>
      cases hq : parentOf t p with
      | none => rw [walkUp_stop2 hp hq, walkUp_stop2 hp hq]
      | some qq =>
        obtain ⟨g2, rfl⟩ : ∃ g2, f2 = g2 + 1 :=
          ⟨f2 - 1, (Nat.succ_pred_eq_of_pos (Nat.pos_of_ne_zero (by
            intro h; rw [h] at h2; exact Nat.not_lt_zero _ h2))).symm⟩
        show walkUp t (g + 1) r = walkUp t (g2 + 1) r
        simp only [walkUp, hp, hq]
        have hpr : rank p < rank r := hdec r p hp
        exact ih g2 p (Nat.lt_of_lt_of_le hpr (Nat.lt_succ_iff.mp h1))
          (Nat.lt_of_lt_of_le hpr (Nat.lt_succ_iff.mp h2))

theorem walkUp_step {t : ConceptTree} (rank : Nat → Nat)
    (hdec : ∀ x p, parentOf t x = some p → rank p < rank x)
    {r p q : Nat} (hp : parentOf t r = some p) (hq : parentOf t p = some q)
    {f : Nat} (hf : rank r < f) : walkUp t f r = walkUp t f p := by
  obtain ⟨g, rfl⟩ : ∃ g, f = g + 1 :=
    ⟨f - 1, (Nat.succ_pred_eq_of_pos (Nat.pos_of_ne_zero (by
      intro h; rw [h] at hf; exact Nat.not_lt_zero _ hf))).symm⟩
  have h1 : walkUp t (g + 1) r = walkUp t g p := by
    simp only [walkUp, hp, hq]
  rw [h1]
  exact walkUp_congr rank hdec g (g + 1) p
    (Nat.lt_of_lt_of_le (hdec r p hp) (Nat.lt_succ_iff.mp hf))
    (Nat.lt_succ_of_lt (Nat.lt_of_lt_of_le (hdec r p hp) (Nat.lt_succ_iff.mp hf)))

/-- With enough fuel the walk reaches an ancestor of its start that satisfies
the loop's stopping condition, and a result different from the start has a
parent. -/
theorem walkUp_spec {t : ConceptTree} (rank : Nat → Nat)
    (hdec : ∀ x p, parentOf t x = some p → rank p < rank x) :
    ∀ n r f, rank r = n → rank r < f →
      Reaches t r (walkUp t f r) ∧
      (walkUp t f r = r ∨ parentOf t (walkUp t f r) ≠ none) ∧
      (parentOf t (walkUp t f r) = none ∨
        ∃ q, parentOf t (walkUp t f r) = some q ∧ parentOf t q = none) := by
  intro n
  induction n using Nat.strong_induction_on with
  | _ n ih =>
    intro r f hn hf
    cases hp : parentOf t r with
    | none =>
      rw [walkUp_stop1 hp]
      exact ⟨Relation.ReflTransGen.refl, Or.inl rfl, Or.inl hp⟩
    | some p =>
      cases hq : parentOf t p with
      | none =>
        rw [walkUp_stop2 hp hq]
        exact ⟨Relation.ReflTransGen.refl, Or.inl rfl, Or.inr ⟨p, hp, hq⟩⟩
      | some qq =>
        rw [walkUp_step rank hdec hp hq hf]
        have hpr : rank p < n := hn ▸ hdec r p hp
        obtain ⟨hreach, horig, hstop⟩ :=
          ih (rank p) hpr p f rfl (Nat.lt_trans (hn ▸ hpr) hf)
        refine ⟨Relation.ReflTransGen.head hp hreach, ?_, hstop⟩
        rcases horig with h | h
        · rw [h, hq]; exact Or.inr (by simp)
        · exact Or.inr h

/-- How splitting a root child changes the upward walk: walks that used to end
elsewhere are unchanged, and walks that used to end at the split node now end
at the split node itself (when they started there) or at one of its promoted
children. -/
theorem walk_compare {t : ConceptTree} (wf : WF t) (rank : Nat → Nat)
    (hdec : ∀ x p, parentOf t x = some p → rank p < rank x)
    {c : Nat} (hc : c ∈ childrenOf t t.root) :
    ∀ n r f, rank r = n → rank r < f →
      (walkUp (split t c) f r = walkUp t f r ∧ walkUp t f r ≠ c) ∨
      (walkUp t f r = c ∧
        (walkUp (split t c) f r = c ∨ walkUp (split t c) f r ∈ childrenOf t c)) := by
  have hcN : c < t.nodes.length := mem_children_lt wf wf.root_lt hc
  have hpc : parentOf t c = some t.root := wf.parent_of_child _ wf.root_lt c hc
  have hcr : c ≠ t.root := by
    intro h
    rw [h, wf.root_parent] at hpc
    exact Option.noConfusion hpc
  have hpcs : ∀ y ∈ childrenOf t c, parentOf t y = some c :=
    fun y hy => wf.parent_of_child c hcN y hy
  have hccs : c ∉ childrenOf t c := by
    intro h
    have h2 := hpcs c h
    rw [hpc] at h2
    exact hcr (Option.some.inj h2).symm
  have hcsN : ∀ y ∈ childrenOf t c, y < t.nodes.length :=
    fun y hy => mem_children_lt wf hcN hy
  have hrootcs : t.root ∉ childrenOf t c := by
    intro h
    have h2 := hpcs t.root h
    rw [wf.root_parent] at h2
    exact Option.noConfusion h2
  have hpar : ∀ x, parentOf (split t c) x = if x = c then none
      else if x ∈ childrenOf t c then some t.root else parentOf t x :=
    fun x => parentOf_split t c x hcsN
  have hrootn2 : parentOf (split t c) t.root = none := by
    rw [hpar t.root, if_neg (Ne.symm hcr), if_neg hrootcs]
    exact wf.root_parent
  have hdec2 : ∀ x p, parentOf (split t c) x = some p → rank p < rank x := by
    intro x p h
    rw [hpar x] at h
    by_cases h1 : x = c
    · rw [if_pos h1] at h; exact Option.noConfusion h
    · rw [if_neg h1] at h
      by_cases h2 : x ∈ childrenOf t c
      · rw [if_pos h2] at h
        rw [← Option.some.inj h]
        exact Nat.lt_trans (hdec c t.root hpc) (hdec x c (hpcs x h2))
      · rw [if_neg h2] at h; exact hdec x p h
  intro n
  induction n using Nat.strong_induction_on with
  | _ n ih =>
    intro r f hn hf
    cases hp : parentOf t r with
    | none =>
      have hrc : r ≠ c := by
        intro h; rw [h, hpc] at hp; exact Option.noConfusion hp
      have hrcs : r ∉ childrenOf t c := by
        intro h; rw [hpcs r h] at hp; exact Option.noConfusion hp
      have hp2 : parentOf (split t c) r = none := by
        rw [hpar r, if_neg hrc, if_neg hrcs]; exact hp
      rw [walkUp_stop1 hp, walkUp_stop1 hp2]
      exact Or.inl ⟨rfl, hrc⟩
    | some p =>
      cases hq : parentOf t p with
      | none =>
        rw [walkUp_stop2 hp hq]
        by_cases hrc : r = c
        · have hp2 : parentOf (split t c) r = none := by rw [hpar r, if_pos hrc]
          rw [walkUp_stop1 hp2]
          exact Or.inr ⟨hrc, Or.inl hrc⟩
        · have hrcs : r ∉ childrenOf t c := by
            intro h
            have h2 := hpcs r h
            rw [hp] at h2
            have hpc2 : p = c := Option.some.inj h2
            rw [hpc2, hpc] at hq
            exact Option.noConfusion hq
          have hpnc : p ≠ c := by
            intro h; rw [h, hpc] at hq; exact Option.noConfusion hq
          have hpncs : p ∉ childrenOf t c := by
            intro h; rw [hpcs p h] at hq; exact Option.noConfusion hq
          have hp2 : parentOf (split t c) r = some p := by
            rw [hpar r, if_neg hrc, if_neg hrcs]; exact hp
          have hq2 : parentOf (split t c) p = none := by
            rw [hpar p, if_neg hpnc, if_neg hpncs]; exact hq
          rw [walkUp_stop2 hp2 hq2]
          exact Or.inl ⟨rfl, hrc⟩
      | some qq =>
        have hrc : r ≠ c := by
          intro h
          rw [h, hpc] at hp
          have hpr : t.root = p := Option.some.inj hp
          rw [← hpr, wf.root_parent] at hq
          exact Option.noConfusion hq
        have hstep : walkUp t f r = walkUp t f p := walkUp_step rank hdec hp hq hf
        by_cases hpcase : p = c
        · subst hpcase
          have hrmem : r ∈ childrenOf t p :=
            wf.child_of_parent r (lt_of_parentOf_eq_some hp) p hcN hp
          have hwc : walkUp t f p = p := walkUp_stop2 hpc wf.root_parent f
          have hp2 : parentOf (split t p) r = some t.root := by
            rw [hpar r, if_neg hrc, if_pos hrmem]
          have hw2 : walkUp (split t p) f r = r := walkUp_stop2 hp2 hrootn2 f
          rw [hstep, hwc, hw2]
          exact Or.inr ⟨rfl, Or.inr hrmem⟩
        · have hrcs : r ∉ childrenOf t c := by
            intro h
            have h2 := hpcs r h
            rw [hp] at h2
            exact hpcase (Option.some.inj h2)
          have hp2 : parentOf (split t c) r = some p := by
            rw [hpar r, if_neg hrc, if_neg hrcs]; exact hp
          by_cases hpcs2 : p ∈ childrenOf t c
          · have hqc : qq = c := by
              have h2 := hpcs p hpcs2
              rw [hq] at h2
              exact Option.some.inj h2
            have hfp : rank p < f := Nat.lt_trans (hdec r p hp) hf
            have hstep2 : walkUp t f p = walkUp t f c := by
              rw [hqc] at hq
              exact walkUp_step rank hdec hq hpc hfp
            have hwc : walkUp t f c = c := walkUp_stop2 hpc wf.root_parent f
            have hq2 : parentOf (split t c) p = some t.root := by
              rw [hpar p, if_neg hpcase, if_pos hpcs2]
            have hstep2b : walkUp (split t c) f r = walkUp (split t c) f p :=
              walkUp_step rank hdec2 hp2 hq2 hf
            have hw2 : walkUp (split t c) f p = p := walkUp_stop2 hq2 hrootn2 f
            rw [hstep, hstep2, hwc, hstep2b, hw2]
            exact Or.inr ⟨rfl, Or.inr hpcs2⟩
          · have hq2 : parentOf (split t c) p = some qq := by
              rw [hpar p, if_neg hpcase, if_neg hpcs2]; exact hq
            have hstep2 : walkUp (split t c) f r = walkUp (split t c) f p :=
              walkUp_step rank hdec2 hp2 hq2 hf
            have hfp : rank p < f := Nat.lt_trans (hdec r p hp) hf
            rw [hstep, hstep2]
            exact ih (rank p) (hn ▸ hdec r p hp) p f rfl hfp

theorem WF.rank_exists {t : ConceptTree} (wf : WF t) : ∃ rank : Nat → Nat,
    (∀ x, x < t.nodes.length → rank x < t.nodes.length) ∧
    (∀ x p, parentOf t x = some p → rank p < rank x) := by
  obtain ⟨rank, hb, hd⟩ := wf.ranked
  exact ⟨rank, hb, fun x p h => hd x (lt_of_parentOf_eq_some h) p (parent_lt wf h) h⟩

/-- Splitting a root child preserves well-formedness. -/
theorem WF_split {t : ConceptTree} (wf : WF t) {c : Nat}
    (hc : c ∈ childrenOf t t.root) : WF (split t c) := by
  have hcN : c < t.nodes.length := mem_children_lt wf wf.root_lt hc
  have hpc : parentOf t c = some t.root := wf.parent_of_child _ wf.root_lt c hc
  have hcr : c ≠ t.root := by
    intro h
    rw [h, wf.root_parent] at hpc
    exact Option.noConfusion hpc
  have hpcs : ∀ y ∈ childrenOf t c, parentOf t y = some c :=
    fun y hy => wf.parent_of_child c hcN y hy
  have hccs : c ∉ childrenOf t c := by
    intro h
    have h2 := hpcs c h
    rw [hpc] at h2
    exact hcr (Option.some.inj h2).symm
  have hcsN : ∀ y ∈ childrenOf t c, y < t.nodes.length :=
    fun y hy => mem_children_lt wf hcN hy
  have hrootcs : t.root ∉ childrenOf t c := by
    intro h
    have h2 := hpcs t.root h
    rw [wf.root_parent] at h2
    exact Option.noConfusion h2
  have hpar : ∀ x, parentOf (split t c) x = if x = c then none
      else if x ∈ childrenOf t c then some t.root else parentOf t x :=
    fun x => parentOf_split t c x hcsN
  have hch : ∀ x, childrenOf (split t c) x = if x = c then []
      else if x = t.root then (childrenOf t t.root).erase c ++ childrenOf t c
      else childrenOf t x :=
    fun x => childrenOf_split t c x wf.root_lt
  have hlen : (split t c).nodes.length = t.nodes.length := split_nodes_length t c
  have hdisj : ∀ x, x ∈ childrenOf t t.root → x ∈ childrenOf t c → False := by
    intro x h1 h2
    have e1 := wf.parent_of_child _ wf.root_lt x h1
    have e2 := hpcs x h2
    rw [e1] at e2
    exact hcr (Option.some.inj e2).symm
  refine ⟨?_, ?_, ?_, ?_, ?_, ?_, ?_, ?_, ?_⟩
  · rw [split_root, hlen]; exact wf.root_lt
  · rw [split_root, hpar t.root, if_neg (Ne.symm hcr), if_neg hrootcs]
    exact wf.root_parent
  · intro p hp x hx
    rw [hlen] at hp
    rw [hch p] at hx
    by_cases h1 : p = c
    · rw [if_pos h1] at hx; exact absurd hx (List.not_mem_nil x)
    · rw [if_neg h1] at hx
      by_cases h2 : p = t.root
      · rw [if_pos h2] at hx
        rcases List.mem_append.mp hx with hx | hx
        · have hx2 := (List.Nodup.mem_erase_iff (wf.children_nodup _ wf.root_lt)).mp hx
          have hxcs : x ∉ childrenOf t c := fun h => hdisj x hx2.2 h
          rw [hpar x, if_neg hx2.1, if_neg hxcs, h2]
          exact wf.parent_of_child _ wf.root_lt x hx2.2
        · have hxc : x ≠ c := fun h => hccs (h ▸ hx)
          rw [hpar x, if_neg hxc, if_pos hx, h2]
      · rw [if_neg h2] at hx
        have hxp := wf.parent_of_child p hp x hx
        have hxc : x ≠ c := by
          intro h
          rw [h, hpc] at hxp
          exact h2 (Option.some.inj hxp).symm
        have hxcs : x ∉ childrenOf t c := by
          intro h
          have h3 := hpcs x h
          rw [hxp] at h3
          exact h1 (Option.some.inj h3)
        rw [hpar x, if_neg hxc, if_neg hxcs]
        exact hxp
  · intro x hx p h
    rw [hpar x] at h
    by_cases h1 : x = c
    · rw [if_pos h1] at h; exact Option.noConfusion h
    · rw [if_neg h1] at h
      by_cases h2 : x ∈ childrenOf t c
      · rw [if_pos h2] at h
        rw [← Option.some.inj h, hlen]
        exact wf.root_lt
      · rw [if_neg h2] at h
        rw [hlen] at hx ⊢
        exact wf.parent_bound x hx p h
  · intro x hx p hp h
    rw [hlen] at hx hp
    rw [hpar x] at h
    rw [hch p]
    by_cases h1 : x = c
    · rw [if_pos h1] at h; exact Option.noConfusion h
    · rw [if_neg h1] at h
      by_cases h2 : x ∈ childrenOf t c
      · rw [if_pos h2] at h
        have hpr : p = t.root := (Option.some.inj h).symm
        subst hpr
        rw [if_neg (Ne.symm hcr), if_pos rfl]
        exact List.mem_append.mpr (Or.inr h2)
      · rw [if_neg h2] at h
        have hmem := wf.child_of_parent x hx p hp h
        by_cases h3 : p = c
        · exact absurd (h3 ▸ hmem) h2
        · rw [if_neg h3]
          by_cases h4 : p = t.root
          · rw [if_pos h4]
            refine List.mem_append.mpr (Or.inl ?_)
            exact (List.Nodup.mem_erase_iff (wf.children_nodup _ wf.root_lt)).mpr
              ⟨h1, h4 ▸ hmem⟩
          · rw [if_neg h4]; exact hmem
  · intro x hx y hy hxy
    rw [hlen] at hx hy
    rw [cidOf_split, cidOf_split]
    exact wf.cid_inj x hx y hy hxy
  · intro p hp
    rw [hlen] at hp
    rw [hch p]
    by_cases h1 : p = c
    · rw [if_pos h1]; exact List.nodup_nil
    · rw [if_neg h1]
      by_cases h2 : p = t.root
      · rw [if_pos h2]
        rw [List.nodup_append]
        refine ⟨List.Nodup.erase c (wf.children_nodup _ wf.root_lt),
          wf.children_nodup c hcN, ?_⟩
        intro a ha hb
        have ha2 := (List.Nodup.mem_erase_iff (wf.children_nodup _ wf.root_lt)).mp ha
        exact hdisj a ha2.2 hb
      · rw [if_neg h2]; exact wf.children_nodup p hp
  · intro x hx h
    rw [hlen] at hx
    rw [hpar x] at h
    rw [split_root, hch x]
    by_cases h1 : x = c
    · rw [if_pos h1]; exact Or.inr rfl
    · rw [if_neg h1] at h ⊢
      by_cases h2 : x ∈ childrenOf t c
      · rw [if_pos h2] at h; exact Option.noConfusion h
      · rw [if_neg h2] at h
        rcases wf.parentless x hx h with h3 | h3
        · exact Or.inl h3
        · by_cases h4 : x = t.root
          · exact Or.inl h4
          · rw [if_neg h4]; exact Or.inr h3
  · obtain ⟨rank, hb, hd⟩ := wf.rank_exists
    refine ⟨rank, ?_, ?_⟩
    · rw [hlen]; exact hb
    · intro x hx p hp h
      rw [hpar x] at h
      by_cases h1 : x = c
      · rw [if_pos h1] at h; exact Option.noConfusion h
      · rw [if_neg h1] at h
        by_cases h2 : x ∈ childrenOf t c
        · rw [if_pos h2] at h
          rw [← Option.some.inj h]
          exact Nat.lt_trans (hd c t.root hpc) (hd x c (hpcs x h2))
        · rw [if_neg h2] at h; exact hd x p h

/-! ### The selection step: sorted-last versus argmax -/

theorem canLe_refl (a : ℚ × Nat × Nat) : canLe a a := Or.inr ⟨rfl, Nat.le_refl _⟩

theorem canLe_antisymm_key {a b : ℚ × Nat × Nat} (h1 : canLe a b) (h2 : canLe b a) :
    a.1 = b.1 ∧ a.2.1 = b.2.1 := by
  rcases h1 with h1 | ⟨h1, h1b⟩ <;> rcases h2 with h2 | ⟨h2, h2b⟩
  · exact absurd h2 (lt_asymm h1)
  · exact absurd h1 (h2 ▸ lt_irrefl _)
  · exact absurd h2 (h1 ▸ lt_irrefl _)
  · exact ⟨h1, Nat.le_antisymm h1b h2b⟩

theorem sorted_getLast_max {l : List (ℚ × Nat × Nat)} (hs : List.Sorted canLe l) :
    ∀ {a}, l.getLast? = some a → ∀ y ∈ l, canLe y a := by
  induction l with
  | nil => intro a ha; exact absurd ha (by simp)
  | cons x xs ih =>
    intro a ha y hy
    cases xs with
    | nil =>
      simp only [List.getLast?_singleton, Option.some.injEq] at ha
      rcases List.mem_singleton.mp hy with rfl
      rw [← ha]
      exact canLe_refl y
    | cons z zs =>
      rw [List.getLast?_cons_cons] at ha
      have hs2 := List.sorted_cons.mp hs
      have hmem : a ∈ z :: zs := List.mem_of_mem_getLast? ha
      rcases List.mem_cons.mp hy with rfl | hy2
      · exact hs2.1 a hmem
      · exact ih hs2.2 ha y hy2



theorem canLe_of_better {b x : ℚ × Nat × Nat}
    (h : b.1 < x.1 ∨ (b.1 = x.1 ∧ b.2.1 < x.2.1)) : canLe b x := by
  rcases h with h | ⟨h1, h2⟩
  · exact Or.inl h
  · exact Or.inr ⟨h1, Nat.le_of_lt h2⟩

theorem canLe_of_not_better {b x : ℚ × Nat × Nat}
    (h : ¬(b.1 < x.1 ∨ (b.1 = x.1 ∧ b.2.1 < x.2.1))) : canLe x b := by
  push_neg at h
  rcases lt_or_eq_of_le h.1 with h2 | h2
  · exact Or.inl h2
  · exact Or.inr ⟨h2, h.2 h2.symm⟩

theorem argmax_fold_spec : ∀ (l : List (ℚ × Nat × Nat)) (b : ℚ × Nat × Nat),
    ∃ m, l.foldl argmaxStep (some b) = some m ∧ (m = b ∨ m ∈ l) ∧ canLe b m ∧
      ∀ y ∈ l, canLe y m := by
  intro l
  induction l with
  | nil => exact fun b => ⟨b, rfl, Or.inl rfl, canLe_refl b, by simp⟩
  | cons x xs ih =>
    intro b
    rw [List.foldl_cons]
    by_cases hbx : b.1 < x.1 ∨ (b.1 = x.1 ∧ b.2.1 < x.2.1)
    · have hstep : argmaxStep (some b) x = some x := by
        simp only [argmaxStep, if_pos hbx]
      rw [hstep]
      obtain ⟨m, heq, hmem, hxm, hall⟩ := ih x
      refine ⟨m, heq, ?_, ?_, ?_⟩
      · rcases hmem with rfl | hm
        · exact Or.inr (List.mem_cons_self _ _)
        · exact Or.inr (List.mem_cons_of_mem _ hm)
      · exact IsTrans.trans b x m (canLe_of_better hbx) hxm
      · intro y hy
        rcases List.mem_cons.mp hy with rfl | hy2
        · exact hxm
        · exact hall y hy2
    · have hstep : argmaxStep (some b) x = some b := by
        simp only [argmaxStep, if_neg hbx]
      rw [hstep]
      obtain ⟨m, heq, hmem, hbm, hall⟩ := ih b
      refine ⟨m, heq, ?_, hbm, ?_⟩
      · rcases hmem with rfl | hm
        · exact Or.inl rfl
        · exact Or.inr (List.mem_cons_of_mem _ hm)
      · intro y hy
        rcases List.mem_cons.mp hy with rfl | hy2
        · exact IsTrans.trans y b m (canLe_of_not_better hbx) hbm
        · exact hall y hy2

theorem argmaxCand_spec (l : List (ℚ × Nat × Nat)) (hne : l ≠ []) :
    ∃ m, argmaxCand l = some m ∧ m ∈ l ∧ ∀ y ∈ l, canLe y m := by
  cases l with
  | nil => exact absurd rfl hne
  | cons x xs =>
    obtain ⟨m, heq, hmem, hxm, hall⟩ := argmax_fold_spec xs x
    refine ⟨m, ?_, ?_, ?_⟩
    · show (x :: xs).foldl argmaxStep none = some m
      rw [List.foldl_cons]
      exact heq
    · rcases hmem with rfl | hm
      · exact List.mem_cons_self _ _
      · exact List.mem_cons_of_mem _ hm
    · intro y hy
      rcases List.mem_cons.mp hy with rfl | hy2
      · exact hxm
      · exact hall y hy2

theorem candidatesFrom_pos (ops : TreeOps Inst) (t : ConceptTree) :
    ∀ (l : List Nat) (i : Nat),
      (∀ x ∈ candidatesFrom ops t i l, i ≤ x.2.1) ∧
      List.Pairwise (fun a b : ℚ × Nat × Nat => a.2.1 < b.2.1)
        (candidatesFrom ops t i l) := by
  intro l
  induction l with
  | nil => intro i; simp [candidatesFrom]
  | cons c0 rest ih =>
    intro i
    simp only [candidatesFrom]
    by_cases h : childrenOf t c0 = []
    · rw [if_pos h]
      simp only [List.nil_append]
      obtain ⟨hb, hp⟩ := ih (i + 1)
      exact ⟨fun x hx => Nat.le_of_succ_le (hb x hx), hp⟩
    · rw [if_neg h]
      obtain ⟨hb, hp⟩ := ih (i + 1)
      constructor
      · intro x hx
        rcases List.mem_append.mp hx with hx | hx
        · rcases List.mem_singleton.mp hx with rfl
          exact Nat.le_refl _
        · exact Nat.le_of_succ_le (hb x hx)
      · rw [List.pairwise_append]
        refine ⟨List.pairwise_singleton _ _, hp, ?_⟩
        intro a ha b hb2
        rcases List.mem_singleton.mp ha with rfl
        exact Nat.lt_of_succ_le (hb b hb2)

theorem pos_inj_of_pairwise : ∀ {l : List (ℚ × Nat × Nat)},
    List.Pairwise (fun a b : ℚ × Nat × Nat => a.2.1 < b.2.1) l →
    ∀ {a b}, a ∈ l → b ∈ l → a.2.1 = b.2.1 → a = b := by
  intro l hp
  induction hp with
  | nil => intro a b ha; exact absurd ha (List.not_mem_nil a)
  | cons hx hxs ih =>
    intro a b ha hb heq
    rcases List.mem_cons.mp ha with rfl | ha2 <;> rcases List.mem_cons.mp hb with rfl | hb2
    · rfl
    · exact absurd heq (Nat.ne_of_lt (hx b hb2))
    · exact absurd heq.symm (Nat.ne_of_lt (hx a ha2))
    · exact ih ha2 hb2 heq

theorem mem_candidatesFrom {ops : TreeOps Inst} {t : ConceptTree} :
    ∀ {i : Nat} {l : List Nat} {x : ℚ × Nat × Nat}, x ∈ candidatesFrom ops t i l →
      x.2.2 ∈ l ∧ childrenOf t x.2.2 ≠ [] := by
  intro i l
  induction l generalizing i with
  | nil => intro x hx; exact absurd hx (List.not_mem_nil x)
  | cons c0 rest ih =>
    intro x hx
    simp only [candidatesFrom] at hx
    by_cases h : childrenOf t c0 = []
    · rw [if_pos h] at hx
      simp only [List.nil_append] at hx
      obtain ⟨h1, h2⟩ := ih hx
      exact ⟨List.mem_cons_of_mem _ h1, h2⟩
    · rw [if_neg h] at hx
      rcases List.mem_append.mp hx with hx | hx
      · rcases List.mem_singleton.mp hx with rfl
        exact ⟨List.mem_cons_self _ _, h⟩
      · obtain ⟨h1, h2⟩ := ih hx
        exact ⟨List.mem_cons_of_mem _ h1, h2⟩

theorem getLast_split_cus_eq_argmax (ops : TreeOps Inst) (t : ConceptTree) :
    (split_cus ops t).getLast? =
      argmaxCand (candidatesFrom ops t 0 (childrenOf t t.root)) := by
  by_cases hne : candidatesFrom ops t 0 (childrenOf t t.root) = []
  · rw [split_cus, hne]
    rfl
  · obtain ⟨m, hm, hmem, hall⟩ := argmaxCand_spec _ hne
    have hperm := List.perm_insertionSort canLe
      (candidatesFrom ops t 0 (childrenOf t t.root))
    have hsne : List.insertionSort canLe
        (candidatesFrom ops t 0 (childrenOf t t.root)) ≠ [] := by
      intro h
      rw [h] at hperm
      exact hne (List.Perm.nil_eq hperm).symm
    obtain ⟨g, hg⟩ : ∃ g, (List.insertionSort canLe
        (candidatesFrom ops t 0 (childrenOf t t.root))).getLast? = some g := by
      cases hgl : (List.insertionSort canLe
          (candidatesFrom ops t 0 (childrenOf t t.root))).getLast? with
      | none => exact absurd (List.getLast?_eq_none_iff.mp hgl) hsne
      | some g => exact ⟨g, rfl⟩
    have hgmem : g ∈ candidatesFrom ops t 0 (childrenOf t t.root) :=
      hperm.mem_iff.mp (List.mem_of_mem_getLast? hg)
    have hsorted := List.sorted_insertionSort canLe
      (candidatesFrom ops t 0 (childrenOf t t.root))
    have hgmax : ∀ y ∈ candidatesFrom ops t 0 (childrenOf t t.root), canLe y g :=
      fun y hy => sorted_getLast_max hsorted hg y (hperm.mem_iff.mpr hy)
    have hkey := canLe_antisymm_key (hall g hgmem) (hgmax m hmem)
    have hgm : g = m := pos_inj_of_pairwise
      ((candidatesFrom_pos ops t (childrenOf t t.root) 0).2) hgmem hmem hkey.2
    rw [split_cus, hg, hm, hgm]

theorem selectSplit_eq_argmaxChild (ops : TreeOps Inst) (t : ConceptTree) :
    selectSplit ops t = argmaxChild ops t := by
  rw [selectSplit, argmaxChild, getLast_split_cus_eq_argmax]

theorem selectSplit_some {ops : TreeOps Inst} {t : ConceptTree} {c : Nat}
    (h : selectSplit ops t = some c) :
    c ∈ childrenOf t t.root ∧ childrenOf t c ≠ [] := by
  rw [selectSplit] at h
  cases hgl : (split_cus ops t).getLast? with
  | none => rw [hgl] at h; exact Option.noConfusion h
  | some y =>
    rw [hgl] at h
    simp only [Option.map_some'] at h
    have hy2 : y ∈ candidatesFrom ops t 0 (childrenOf t t.root) :=
      (List.perm_insertionSort canLe _).mem_iff.mp (List.mem_of_mem_getLast? hgl)
    obtain ⟨h1, h2⟩ := mem_candidatesFrom hy2
    rw [← Option.some.inj h]
    exact ⟨h1, h2⟩

/-! ### Refinement of the emitted labels under one split -/

theorem string_append_left_cancel {p s1 s2 : String} (h : p ++ s1 = p ++ s2) :
    s1 = s2 := by
  apply String.ext
  have h2 := congrArg String.data h
  rw [String.data_append, String.data_append] at h2
  exact List.append_cancel_left h2

theorem list_toFinset_map (l : List String) (g : String → String) :
    (l.map g).toFinset = l.toFinset.image g := by
  induction l with
  | nil => simp
  | cons x xs ih => simp [ih]

theorem labelsOf_split_pointwise {t : ConceptTree} (wf : WF t) {c : Nat}
    (hc : c ∈ childrenOf t t.root) {r : Nat} (hr : r < t.nodes.length) :
    "Concept" ++ cidOf t (walkUp t t.nodes.length r) =
      (if ("Concept" ++ cidOf (split t c) (walkUp (split t c) (split t c).nodes.length r)) ∈
          (childrenOf t c).map (fun y => "Concept" ++ cidOf t y)
        then "Concept" ++ cidOf t c
        else "Concept" ++ cidOf (split t c) (walkUp (split t c) (split t c).nodes.length r)) := by
  have hcN : c < t.nodes.length := mem_children_lt wf wf.root_lt hc
  have hpc : parentOf t c = some t.root := wf.parent_of_child _ wf.root_lt c hc
  obtain ⟨rank, hbound, hdec⟩ := wf.rank_exists
  have hfuel : rank r < t.nodes.length := hbound r hr
  have hN2 : (split t c).nodes.length = t.nodes.length := split_nodes_length t c
  rw [hN2]
  have hcomp := walk_compare wf rank hdec hc (rank r) r t.nodes.length rfl hfuel
  have hspec := walkUp_spec rank hdec (rank r) r t.nodes.length rfl hfuel
  have haN : walkUp t t.nodes.length r < t.nodes.length := by
    rcases hspec.2.1 with he | hne
    · rw [he]; exact hr
    · cases hpa : parentOf t (walkUp t t.nodes.length r) with
      | none => exact absurd hpa hne
      | some p => exact lt_of_parentOf_eq_some hpa
  have hanotcs : walkUp t t.nodes.length r ∉ childrenOf t c := by
    intro hmem
    have hpa : parentOf t (walkUp t t.nodes.length r) = some c :=
      wf.parent_of_child c hcN _ hmem
    rcases hspec.2.2 with hnone | ⟨q, hq, hqn⟩
    · rw [hpa] at hnone; exact Option.noConfusion hnone
    · rw [hpa] at hq
      rw [← Option.some.inj hq, hpc] at hqn
      exact Option.noConfusion hqn
  rcases hcomp with ⟨heq, hne⟩ | ⟨heqc, hcases⟩
  · rw [heq, cidOf_split]
    rw [if_neg ?_]
    intro hmem
    obtain ⟨y, hy, hlab⟩ := List.mem_map.mp hmem
    have hcid : cidOf t y = cidOf t (walkUp t t.nodes.length r) :=
      string_append_left_cancel hlab
    by_cases hya : y = walkUp t t.nodes.length r
    · exact hanotcs (hya ▸ hy)
    · exact wf.cid_inj y (mem_children_lt wf hcN hy) _ haN hya hcid
  · rw [heqc]
    rcases hcases with hwc | hwcs
    · rw [hwc, cidOf_split]
      by_cases hmem : ("Concept" ++ cidOf t c) ∈
          (childrenOf t c).map (fun y => "Concept" ++ cidOf t y)
      · rw [if_pos hmem]
      · rw [if_neg hmem]
    · rw [cidOf_split]
      rw [if_pos (List.mem_map.mpr ⟨walkUp (split t c) t.nodes.length r, hwcs, rfl⟩)]

theorem labels_refine {t : ConceptTree} (wf : WF t) {c : Nat}
    (hc : c ∈ childrenOf t t.root) (refs : List Nat)
    (hrefs : ∀ r ∈ refs, r < t.nodes.length) :
    labelsOf t refs = (labelsOf (split t c) refs).map
      (fun s => if s ∈ (childrenOf t c).map (fun y => "Concept" ++ cidOf t y)
        then "Concept" ++ cidOf t c else s) := by
  rw [labelsOf, labelsOf, List.map_map]
  refine List.map_congr_left ?_
  intro r hr
  exact labelsOf_split_pointwise wf hc (hrefs r hr)

theorem distinct_le_split {t : ConceptTree} (wf : WF t) {c : Nat}
    (hc : c ∈ childrenOf t t.root) (refs : List Nat)
    (hrefs : ∀ r ∈ refs, r < t.nodes.length) :
    (labelsOf t refs).toFinset.card ≤ (labelsOf (split t c) refs).toFinset.card := by
  rw [labels_refine wf hc refs hrefs, list_toFinset_map]
  exact Finset.card_image_le

/-! ### Properties of the split loop -/

theorem fitPhase_length (ops : TreeOps Inst) (t : ConceptTree) (instances : List Inst)
    (mod : Bool) : (fitPhase ops t instances mod).2.length = instances.length := by
  cases mod with
  | false => simp [fitPhase]
  | true =>
    simp only [fitPhase, if_pos]
    suffices h : ∀ (l : List Inst) (acc : ConceptTree × List Nat),
        ((l.foldl (fun acc inst =>
          ((ops.ifit acc.1 inst).1, acc.2 ++ [(ops.ifit acc.1 inst).2])) acc).2).length =
          acc.2.length + l.length by
      rw [h instances (t, [])]
      simp
    intro l
    induction l with
    | nil => intro acc; simp
    | cons x xs ih =>
      intro acc
      rw [List.foldl_cons, ih]
      simp
      omega

theorem go_out_length (ops : TreeOps Inst) (refs : List Nat) (ms : Nat) :
    ∀ (fuel n : Nat) (t : ConceptTree),
      ((cluster_iter_go ops refs ms t n fuel).2).length ≤ fuel - (ms - n) := by
  intro fuel
  induction fuel with
  | zero => intro n t; simp [cluster_iter_go]
  | succ fuel ih =>
    intro n t
    simp only [cluster_iter_go]
    cases hsel : selectSplit ops t with
    | none =>
      by_cases hn : ms ≤ n
      · simp only [if_pos hn]
        simp only [List.length_cons, List.length_nil]
        omega
      · simp only [if_neg hn]
        simp only [List.length_nil]
        omega
    | some c =>
      have hrec := ih (n + 1) (split t c)
      by_cases hn : ms ≤ n
      · simp only [if_pos hn, List.length_append, List.length_cons, List.length_nil]
        omega
      · simp only [if_neg hn, List.length_append, List.length_nil]
        omega

theorem go_out_each_length (ops : TreeOps Inst) (refs : List Nat) (ms : Nat) :
    ∀ (fuel n : Nat) (t : ConceptTree),
      ∀ v ∈ (cluster_iter_go ops refs ms t n fuel).2, v.length = refs.length := by
  intro fuel
  induction fuel with
  | zero => intro n t v hv; simp [cluster_iter_go] at hv
  | succ fuel ih =>
    intro n t v hv
    simp only [cluster_iter_go] at hv
    cases hsel : selectSplit ops t with
    | none =>
      rw [hsel] at hv
      by_cases hn : ms ≤ n
      · rw [if_pos hn] at hv
        rcases List.mem_singleton.mp hv with rfl
        simp [labelsOf]
      · rw [if_neg hn] at hv
        exact absurd hv (List.not_mem_nil v)
    | some c =>
      rw [hsel] at hv
      rcases List.mem_append.mp hv with hv | hv
      · by_cases hn : ms ≤ n
        · rw [if_pos hn] at hv
          rcases List.mem_singleton.mp hv with rfl
          simp [labelsOf]
        · rw [if_neg hn] at hv
          exact absurd hv (List.not_mem_nil v)
      · exact ih (n + 1) (split t c) v hv

theorem go_counts_lower (ops : TreeOps Inst) (refs : List Nat) (ms : Nat) :
    ∀ (fuel n : Nat) (t : ConceptTree), WF t → (∀ r ∈ refs, r < t.nodes.length) →
      ∀ v ∈ (cluster_iter_go ops refs ms t n fuel).2,
        (labelsOf t refs).toFinset.card ≤ v.toFinset.card := by
  intro fuel
  induction fuel with
  | zero => intro n t _ _ v hv; simp [cluster_iter_go] at hv
  | succ fuel ih =>
    intro n t wf hrefs v hv
    simp only [cluster_iter_go] at hv
    cases hsel : selectSplit ops t with
    | none =>
      rw [hsel] at hv
      by_cases hn : ms ≤ n
      · rw [if_pos hn] at hv
        rcases List.mem_singleton.mp hv with rfl
        exact Nat.le_refl _
      · rw [if_neg hn] at hv
        exact absurd hv (List.not_mem_nil v)
    | some c =>
      rw [hsel] at hv
      obtain ⟨hc, _⟩ := selectSplit_some hsel
      have wf2 := WF_split wf hc
      have hrefs2 : ∀ r ∈ refs, r < (split t c).nodes.length := by
        rw [split_nodes_length]; exact hrefs
      rcases List.mem_append.mp hv with hv | hv
      · by_cases hn : ms ≤ n
        · rw [if_pos hn] at hv
          rcases List.mem_singleton.mp hv with rfl
          exact Nat.le_refl _
        · rw [if_neg hn] at hv
          exact absurd hv (List.not_mem_nil v)
      · exact Nat.le_trans (distinct_le_split wf hc refs hrefs)
          (ih (n + 1) (split t c) wf2 hrefs2 v hv)

theorem go_counts_pairwise (ops : TreeOps Inst) (refs : List Nat) (ms : Nat) :
    ∀ (fuel n : Nat) (t : ConceptTree), WF t → (∀ r ∈ refs, r < t.nodes.length) →
      List.Pairwise (fun u v : List String => u.toFinset.card ≤ v.toFinset.card)
        (cluster_iter_go ops refs ms t n fuel).2 := by
  intro fuel
  induction fuel with
  | zero => intro n t _ _; simp [cluster_iter_go]
  | succ fuel ih =>
    intro n t wf hrefs
    simp only [cluster_iter_go]
    cases hsel : selectSplit ops t with
    | none =>
      by_cases hn : ms ≤ n
      · rw [if_pos hn]; exact List.pairwise_singleton _ _
      · rw [if_neg hn]; exact List.Pairwise.nil
    | some c =>
      obtain ⟨hc, _⟩ := selectSplit_some hsel
      have wf2 := WF_split wf hc
      have hrefs2 : ∀ r ∈ refs, r < (split t c).nodes.length := by
        rw [split_nodes_length]; exact hrefs
      rw [List.pairwise_append]
      refine ⟨?_, ih (n + 1) (split t c) wf2 hrefs2, ?_⟩
      · by_cases hn : ms ≤ n
        · rw [if_pos hn]; exact List.pairwise_singleton _ _
        · rw [if_neg hn]; exact List.Pairwise.nil
      · intro a ha b hb
        by_cases hn : ms ≤ n
        · rw [if_pos hn] at ha
          rcases List.mem_singleton.mp ha with rfl
          exact Nat.le_trans (distinct_le_split wf hc refs hrefs)
            (go_counts_lower ops refs ms fuel (n + 1) (split t c) wf2 hrefs2 b hb)
        · rw [if_neg hn] at ha
          exact absurd ha (List.not_mem_nil a)

/-! ### Per-instance shape of an emitted clustering -/


theorem labelsOf_spec {t : ConceptTree} (wf : WF t) {refs : List Nat}
    (h : ∀ r ∈ refs, r < t.nodes.length ∧ parentOf t r ≠ none) :
    ∀ i, i < refs.length → ∃ a, Reaches t (refs.getD i 0) a ∧
      parentOf t a = some t.root ∧
      (labelsOf t refs).getD i "" = "Concept" ++ cidOf t a := by
  intro i hi
  have hrmem : refs.getD i 0 ∈ refs := by
    rw [List.getD_eq_getElem?_getD, List.getElem?_eq_getElem hi]
    exact List.getElem_mem hi
  obtain ⟨hrN, hrp⟩ := h _ hrmem
  obtain ⟨rank, hbound, hdec⟩ := wf.rank_exists
  have hspec := walkUp_spec rank hdec (rank (refs.getD i 0)) (refs.getD i 0)
    t.nodes.length rfl (hbound _ hrN)
  have hval : (labelsOf t refs).getD i "" =
      "Concept" ++ cidOf t (walkUp t t.nodes.length (refs.getD i 0)) := by
    rw [labelsOf, List.getD_eq_getElem?_getD, List.getElem?_map,
      List.getElem?_eq_getElem hi]
    rw [List.getD_eq_getElem?_getD, List.getElem?_eq_getElem hi]
    simp
  refine ⟨walkUp t t.nodes.length (refs.getD i 0), hspec.1, ?_, hval⟩
  rcases hspec.2.2 with hnone | ⟨q, hq, hqn⟩
  · rcases hspec.2.1 with he | hne
    · rw [he] at hnone; exact absurd hnone hrp
    · exact absurd hnone hne
  · have haN : walkUp t t.nodes.length (refs.getD i 0) < t.nodes.length :=
      lt_of_parentOf_eq_some hq
    have hqN : q < t.nodes.length := parent_lt wf hq
    have hmem := wf.child_of_parent _ haN q hqN hq
    rcases wf.parentless q hqN hqn with rfl | hqe
    · exact hq
    · rw [hqe] at hmem
      exact absurd hmem (List.not_mem_nil _)

theorem refs_conditions_split {t : ConceptTree} (wf : WF t) {c : Nat}
    (hc : c ∈ childrenOf t t.root) (hcne : childrenOf t c ≠ []) {r : Nat}
    (h1 : r < t.nodes.length) (h2 : parentOf t r ≠ none) (h3 : childrenOf t r = []) :
    r < (split t c).nodes.length ∧ parentOf (split t c) r ≠ none ∧
      childrenOf (split t c) r = [] := by
  have hcN : c < t.nodes.length := mem_children_lt wf wf.root_lt hc
  have hcsN : ∀ y ∈ childrenOf t c, y < t.nodes.length :=
    fun y hy => mem_children_lt wf hcN hy
  have hrc : r ≠ c := by
    intro h; rw [h] at h3; exact hcne h3
  have hrroot : r ≠ t.root := by
    intro h; rw [h] at h2; exact h2 wf.root_parent
  refine ⟨?_, ?_, ?_⟩
  · rw [split_nodes_length]; exact h1
  · rw [parentOf_split t c r hcsN, if_neg hrc]
    by_cases hm : r ∈ childrenOf t c
    · rw [if_pos hm]; exact Option.noConfusion
    · rw [if_neg hm]; exact h2
  · rw [childrenOf_split t c r wf.root_lt, if_neg hrc, if_neg hrroot]
    exact h3

theorem go_c1 (ops : TreeOps Inst) (refs : List Nat) (ms : Nat) :
    ∀ (fuel n : Nat) (t : ConceptTree), WF t →
      (∀ r ∈ refs, r < t.nodes.length ∧ parentOf t r ≠ none ∧ childrenOf t r = []) →
      ∀ v ∈ (cluster_iter_go ops refs ms t n fuel).2,
        ∃ t2, SplitReach ops t t2 ∧ v.length = refs.length ∧
          ∀ i, i < refs.length → ∃ a, Reaches t2 (refs.getD i 0) a ∧
            parentOf t2 a = some t2.root ∧ v.getD i "" = "Concept" ++ cidOf t2 a := by
  intro fuel
  induction fuel with
  | zero => intro n t _ _ v hv; simp [cluster_iter_go] at hv
  | succ fuel ih =>
    intro n t wf hrefs v hv
    simp only [cluster_iter_go] at hv
    cases hsel : selectSplit ops t with
    | none =>
      rw [hsel] at hv
      by_cases hn : ms ≤ n
      · rw [if_pos hn] at hv
        rcases List.mem_singleton.mp hv with rfl
        refine ⟨t, Relation.ReflTransGen.refl, by simp [labelsOf], ?_⟩
        exact labelsOf_spec wf (fun r hr => ⟨(hrefs r hr).1, (hrefs r hr).2.1⟩)
      · rw [if_neg hn] at hv
        exact absurd hv (List.not_mem_nil v)
    | some c =>
      rw [hsel] at hv
      obtain ⟨hc, hcne⟩ := selectSplit_some hsel
      have wf2 := WF_split wf hc
      have hrefs2 : ∀ r ∈ refs, r < (split t c).nodes.length ∧
          parentOf (split t c) r ≠ none ∧ childrenOf (split t c) r = [] := by
        intro r hr
        obtain ⟨h1, h2, h3⟩ := hrefs r hr
        exact refs_conditions_split wf hc hcne h1 h2 h3
      rcases List.mem_append.mp hv with hv | hv
      · by_cases hn : ms ≤ n
        · rw [if_pos hn] at hv
          rcases List.mem_singleton.mp hv with rfl
          refine ⟨t, Relation.ReflTransGen.refl, by simp [labelsOf], ?_⟩
          exact labelsOf_spec wf (fun r hr => ⟨(hrefs r hr).1, (hrefs r hr).2.1⟩)
        · rw [if_neg hn] at hv
          exact absurd hv (List.not_mem_nil v)
      · obtain ⟨t2, hreach, hlen, hprop⟩ := ih (n + 1) (split t c) wf2 hrefs2 v hv
        exact ⟨t2, Relation.ReflTransGen.head ⟨c, hsel, rfl⟩ hreach, hlen, hprop⟩

/-! ### Wrapper-level characterizations -/

theorem cluster_iter_ok (ops : TreeOps Inst) (tree : ConceptTree) (instances : List Inst)
    (ms xs : Int) (h1 : 1 ≤ ms) (h2 : ms ≤ xs) (mod : Bool) :
    cluster_iter ops tree instances ms xs mod = Except.ok
      (cluster_iter_go ops (fitPhase ops (deepcopy tree) instances mod).2 ms.toNat
        (fitPhase ops (deepcopy tree) instances mod).1 1 xs.toNat).2 := by
  rw [cluster_iter, if_neg (not_lt.mpr h1), if_neg (not_lt.mpr h2)]

theorem cluster_iter_error_minsplit (ops : TreeOps Inst) (tree : ConceptTree)
    (instances : List Inst) (ms xs : Int) (mod : Bool) (h : ms < 1) :
    cluster_iter ops tree instances ms xs mod = Except.error "minsplit must be >= 1" := by
  rw [cluster_iter, if_pos h]

theorem cluster_iter_error_maxsplit (ops : TreeOps Inst) (tree : ConceptTree)
    (instances : List Inst) (ms xs : Int) (mod : Bool) (h1 : ¬ ms < 1) (h2 : xs < ms) :
    cluster_iter ops tree instances ms xs mod =
      Except.error "maxsplit must be >= minsplit" := by
  rw [cluster_iter, if_neg h1, if_pos h2]

theorem adoptLoop_eq_takeWhile (k : Int) :
    ∀ (seq : List (List String)) (acc : List String),
      adoptLoop k acc seq =
        (seq.takeWhile (fun c => decide ((c.toFinset.card : Int) ≤ k))).getLastD acc := by
  intro seq
  induction seq with
  | nil => intro acc; rfl
  | cons c rest ih =>
    intro acc
    by_cases hc : (c.toFinset.card : Int) > k
    · rw [List.takeWhile_cons, if_neg (by simp [not_le.mpr hc])]
      show (if (c.toFinset.card : Int) > k then acc else adoptLoop k c rest) = _
      rw [if_pos hc]
      rfl
    · rw [List.takeWhile_cons, if_pos (by simp [not_lt.mp hc])]
      show (if (c.toFinset.card : Int) > k then acc else adoptLoop k c rest) = _
      rw [if_neg hc, ih c]
      rw [List.getLastD_cons]

theorem k_cluster_characterization (ops : TreeOps Inst) (tree : ConceptTree)
    (instances : List Inst) (k : Int) (mod : Bool) (hk : ¬ k < 2) :
    ∃ seq, cluster_iter ops tree instances 1 100000 mod = Except.ok seq ∧
      k_cluster ops tree instances k mod = Except.ok
        ((seq.takeWhile (fun c => decide ((c.toFinset.card : Int) ≤ k))).getLastD
          (instances.map (fun _ => "Concept" ++ cidOf tree tree.root))) := by
  have hok := cluster_iter_ok ops tree instances 1 100000 (by norm_num) (by norm_num) mod
  refine ⟨_, hok, ?_⟩
  rw [k_cluster, if_neg hk, hok]
  exact congrArg Except.ok (adoptLoop_eq_takeWhile k _ _)

theorem getLastD_takeWhile_card {k : Int} (seq : List (List String))
    (init : List String) (hinit : ((init.toFinset.card : Int)) ≤ k) :
    ((((seq.takeWhile (fun c => decide ((c.toFinset.card : Int) ≤ k))).getLastD
      init).toFinset.card : Int)) ≤ k := by
  cases htw : seq.takeWhile (fun c => decide ((c.toFinset.card : Int) ≤ k)) with
  | nil => simpa using hinit
  | cons a l =>
    have hlast : (a :: l).getLastD init ∈ a :: l := by
      rw [List.getLastD_eq_getLast?, List.getLast?_eq_getLast (a :: l) (by simp)]
      exact List.getLast_mem _
    have hmem : (a :: l).getLastD init ∈ seq.takeWhile
        (fun c => decide ((c.toFinset.card : Int) ≤ k)) := by
      rw [htw]; exact hlast
    have hpred := List.mem_takeWhile_imp hmem
    simpa using hpred

theorem map_const_card_le_one (instances : List Inst) (s : String) :
    ((instances.map (fun _ => s)).toFinset.card) ≤ 1 := by
  have hsub : (instances.map (fun _ => s)).toFinset ⊆ {s} := by
    intro x hx
    rw [List.mem_toFinset] at hx
    obtain ⟨a, _, heq⟩ := List.mem_map.mp hx
    exact Finset.mem_singleton.mpr heq.symm
  exact Nat.le_trans (Finset.card_le_card hsub) (by simp)

/-! ### depth_labels -/

theorem collectChain_cons (t : ConceptTree) (fuel r : Nat) :
    ∃ rest, collectChain t fuel r = ("Concept" ++ cidOf t r) :: rest := by
  cases fuel with
  | zero => exact ⟨[], rfl⟩
  | succ f =>
    cases hp : parentOf t r with
    | none => exact ⟨[], by simp [collectChain, hp]⟩
    | some p => exact ⟨collectChain t f p, by simp [collectChain, hp]⟩

theorem collectChain_ne_nil (t : ConceptTree) (fuel r : Nat) :
    collectChain t fuel r ≠ [] := by
  obtain ⟨rest, h⟩ := collectChain_cons t fuel r
  rw [h]
  exact List.cons_ne_nil _ _

theorem collectChain_headD (t : ConceptTree) (fuel r : Nat) :
    (collectChain t fuel r).headD "" = "Concept" ++ cidOf t r := by
  obtain ⟨rest, h⟩ := collectChain_cons t fuel r
  rw [h]
  rfl

theorem collectChain_stop {t : ConceptTree} {r : Nat} (hp : parentOf t r = none)
    (f : Nat) : collectChain t f r = ["Concept" ++ cidOf t r] := by
  cases f <;> simp [collectChain, hp]

theorem collectChain_last {t : ConceptTree} (wf : WF t) (rank : Nat → Nat)
    (hdec : ∀ x p, parentOf t x = some p → rank p < rank x)
    (honly : ∀ x, x < t.nodes.length → parentOf t x = none → x = t.root) :
    ∀ n r f, rank r = n → rank r < f → r < t.nodes.length →
      (collectChain t f r).getLastD "" = "Concept" ++ cidOf t t.root := by
  intro n
  induction n using Nat.strong_induction_on with
  | _ n ih =>
    intro r f hn hf hrN
    cases hp : parentOf t r with
    | none =>
      rw [collectChain_stop hp]
      rw [honly r hrN hp]
      rfl
    | some p =>
      obtain ⟨g, rfl⟩ : ∃ g, f = g + 1 :=
        ⟨f - 1, (Nat.succ_pred_eq_of_pos (Nat.pos_of_ne_zero (by
          intro h; rw [h] at hf; exact Nat.not_lt_zero _ hf))).symm⟩
      have hstep : collectChain t (g + 1) r =
          ("Concept" ++ cidOf t r) :: collectChain t g p := by
        simp [collectChain, hp]
      rw [hstep, List.getLastD_cons]
      have hne := collectChain_ne_nil t g p
      have hswap : (collectChain t g p).getLastD ("Concept" ++ cidOf t r) =
          (collectChain t g p).getLastD "" := by
        rw [List.getLastD_eq_getLast?, List.getLastD_eq_getLast?,
          List.getLast?_eq_getLast _ hne]
        rfl
      rw [hswap]
      have hpr : rank p < n := hn ▸ hdec r p hp
      exact ih (rank p) hpr p g rfl (Nat.lt_of_lt_of_le hpr (by omega))
        (parent_lt wf hp)

theorem foldl_max_ge_init : ∀ (l : List (List String)) (a : Nat),
    a ≤ l.foldl (fun m y => max m y.length) a := by
  intro l
  induction l with
  | nil => intro a; exact Nat.le_refl a
  | cons y ys ih =>
    intro a
    rw [List.foldl_cons]
    exact Nat.le_trans (Nat.le_max_left _ _) (ih _)

theorem foldl_max_le_mem : ∀ (l : List (List String)) (a : Nat),
    ∀ x ∈ l, x.length ≤ l.foldl (fun m y => max m y.length) a := by
  intro l
  induction l with
  | nil => intro a x hx; exact absurd hx (List.not_mem_nil x)
  | cons y ys ih =>
    intro a x hx
    rw [List.foldl_cons]
    rcases List.mem_cons.mp hx with rfl | hm
    · exact Nat.le_trans (Nat.le_max_right a x.length) (foldl_max_ge_init ys _)
    · exact ih _ x hm

theorem padChain_length (maxd : Nat) (labs : List String) (h : labs.length ≤ maxd) :
    (padChain maxd labs).length = maxd := by
  simp only [padChain, List.length_append, List.length_reverse, List.length_replicate]
  omega

theorem getLastD_reverse (labs : List String) (d : String) :
    labs.reverse.getLastD d = labs.headD d := by
  rw [List.getLastD_eq_getLast?, List.getLast?_reverse]
  cases labs <;> rfl

theorem padChain_getD_pad (maxd : Nat) (labs : List String) (d : Nat)
    (h1 : labs.length ≤ d) (h2 : d < maxd) :
    (padChain maxd labs).getD d "" = labs.headD "" := by
  simp only [padChain]
  rw [List.getD_eq_getElem?_getD, List.getElem?_append_right
    (by rw [List.length_reverse]; exact h1)]
  rw [List.getElem?_replicate]
  rw [if_pos (by rw [List.length_reverse]; omega)]
  simp [getLastD_reverse]

theorem getD_map_lt {α β : Type} (l : List α) (g : α → β) (i : Nat)
    (hi : i < l.length) (d0 : α) (d : β) :
    (l.map g).getD i d = g (l.getD i d0) := by
  rw [List.getD_eq_getElem?_getD, List.getElem?_map, List.getElem?_eq_getElem hi,
    List.getD_eq_getElem?_getD, List.getElem?_eq_getElem hi]
  rfl

theorem getD_range_map {β : Type} (n : Nat) (f : Nat → β) (d : Nat)
    (hd : d < n) (dflt : β) :
    (((List.range n).map f).getD d dflt) = f d := by
  rw [getD_map_lt (List.range n) f d (by simpa using hd) 0 dflt]
  rw [List.getD_eq_getElem?_getD, List.getElem?_range hd]
  rfl

theorem depth_labels_spec (ops : TreeOps Inst) (t : ConceptTree) (instances : List Inst)
    (mod : Bool) (hne : instances ≠ []) :
    ∃ out, depth_labels ops t instances mod = some out ∧
      out.length = maxDepthOf (chainsOf ops t instances mod).2 ∧
      (∀ row ∈ out, row.length = instances.length) ∧
      (∀ i d, i < instances.length →
        ((chainsOf ops t instances mod).2.getD i []).length ≤ d →
        d < maxDepthOf (chainsOf ops t instances mod).2 →
        (out.getD d []).getD i "" =
          "Concept" ++ cidOf (fitPhase ops t instances mod).1
            ((fitPhase ops t instances mod).2.getD i 0)) := by
  have hchains : (chainsOf ops t instances mod).2 =
      (fitPhase ops t instances mod).2.map
        (fun r => collectChain (fitPhase ops t instances mod).1
          (fitPhase ops t instances mod).1.nodes.length r) := rfl
  have hrefs_len : (fitPhase ops t instances mod).2.length = instances.length :=
    fitPhase_length ops t instances mod
  have hchains_len : (chainsOf ops t instances mod).2.length = instances.length := by
    rw [hchains, List.length_map, hrefs_len]
  have hchne : (chainsOf ops t instances mod).2 ≠ [] := by
    intro h
    rw [h] at hchains_len
    exact hne (List.length_eq_zero.mp hchains_len.symm)
  have hmaxd : ∀ l ∈ (chainsOf ops t instances mod).2,
      l.length ≤ maxDepthOf (chainsOf ops t instances mod).2 :=
    fun l hl => foldl_max_le_mem _ 0 l hl
  cases hpad : ((chainsOf ops t instances mod).2).map
      (padChain (maxDepthOf (chainsOf ops t instances mod).2)) with
  | nil => exact absurd (List.map_eq_nil.mp hpad) hchne
  | cons p0 prest =>
    have hout : depth_labels ops t instances mod = some ((List.range p0.length).map
        (fun d => (p0 :: prest).map (fun f => f.getD d ""))) := by
      show (match ((chainsOf ops t instances mod).2).map
          (padChain (maxDepthOf (chainsOf ops t instances mod).2)) with
        | [] => (none : Option (List (List String)))
        | f0 :: _ => some ((List.range f0.length).map
            (fun d => (((chainsOf ops t instances mod).2).map
              (padChain (maxDepthOf (chainsOf ops t instances mod).2))).map
                (fun f : List String => f.getD d "")))) = _
      rw [hpad]
    have hp0 : p0.length = maxDepthOf (chainsOf ops t instances mod).2 := by
      have hp0mem : p0 ∈ ((chainsOf ops t instances mod).2).map
          (padChain (maxDepthOf (chainsOf ops t instances mod).2)) := by
        rw [hpad]; exact List.mem_cons_self _ _
      obtain ⟨l0, hl0, heq⟩ := List.mem_map.mp hp0mem
      rw [← heq]
      exact padChain_length _ _ (hmaxd l0 hl0)
    have hpadlen : (p0 :: prest).length = instances.length := by
      rw [← hpad, List.length_map, hchains_len]
    refine ⟨_, hout, ?_, ?_, ?_⟩
    · rw [List.length_map, List.length_range, hp0]
    · intro row hrow
      obtain ⟨d, _, heq⟩ := List.mem_map.mp hrow
      rw [← heq, List.length_map, hpadlen]
    · intro i d hi hd1 hd2
      rw [getD_range_map p0.length _ d (by rw [hp0]; exact hd2) []]
      have hipad : i < (p0 :: prest).length := by rw [hpadlen]; exact hi
      rw [getD_map_lt (p0 :: prest) _ i hipad [] ""]
      have hgetpad : (p0 :: prest).getD i [] =
          padChain (maxDepthOf (chainsOf ops t instances mod).2)
            ((chainsOf ops t instances mod).2.getD i []) := by
        rw [← hpad]
        exact getD_map_lt _ _ i (by rw [hchains_len]; exact hi) [] []
      rw [hgetpad, padChain_getD_pad _ _ d hd1 hd2]
      have hchain_i : (chainsOf ops t instances mod).2.getD i [] =
          collectChain (fitPhase ops t instances mod).1
            (fitPhase ops t instances mod).1.nodes.length
            ((fitPhase ops t instances mod).2.getD i 0) := by
        rw [hchains]
        exact getD_map_lt _ _ i (by rw [hrefs_len]; exact hi) 0 []
      rw [hchain_i, collectChain_headD]

theorem chains_reach_root (ops : TreeOps Inst) (t : ConceptTree) (instances : List Inst)
    (mod : Bool) (wf : WF (fitPhase ops t instances mod).1)
    (honly : ∀ x, x < (fitPhase ops t instances mod).1.nodes.length →
      parentOf (fitPhase ops t instances mod).1 x = none →
      x = (fitPhase ops t instances mod).1.root)
    (hrefs : ∀ r ∈ (fitPhase ops t instances mod).2,
      r < (fitPhase ops t instances mod).1.nodes.length) :
    ∀ i, i < instances.length →
      ((chainsOf ops t instances mod).2.getD i []).getLastD "" =
        "Concept" ++ cidOf (fitPhase ops t instances mod).1
          (fitPhase ops t instances mod).1.root := by
  intro i hi
  have hrefs_len : (fitPhase ops t instances mod).2.length = instances.length :=
    fitPhase_length ops t instances mod
  have hchain_i : (chainsOf ops t instances mod).2.getD i [] =
      collectChain (fitPhase ops t instances mod).1
        (fitPhase ops t instances mod).1.nodes.length
        ((fitPhase ops t instances mod).2.getD i 0) := by
    show ((fitPhase ops t instances mod).2.map
      (fun r => collectChain (fitPhase ops t instances mod).1
        (fitPhase ops t instances mod).1.nodes.length r)).getD i [] = _
    exact getD_map_lt _ _ i (by rw [hrefs_len]; exact hi) 0 []
  have hrmem : (fitPhase ops t instances mod).2.getD i 0 ∈
      (fitPhase ops t instances mod).2 := by
    rw [List.getD_eq_getElem?_getD,
      List.getElem?_eq_getElem (by rw [hrefs_len]; exact hi)]
    exact List.getElem_mem _
  obtain ⟨rank, hbound, hdec⟩ := wf.rank_exists
  rw [hchain_i]
  exact collectChain_last wf rank hdec honly _ _ _ rfl
    (hbound _ (hrefs _ hrmem)) (hrefs _ hrmem)

/-! ### A star-of-pairs family exercising the default maxsplit cap -/


theorem starTree_length (M k : Nat) : (starTree M k).nodes.length = 3*M + 1 := by
  simp [starTree]

theorem star_getElem (M k x : Nat) (hx : x < 3*M + 1) :
    (starTree M k).nodes[x]? = some (starNode M k x) := by
  show ((List.range (3*M+1)).map (starNode M k))[x]? = _
  rw [List.getElem?_map, List.getElem?_range hx]
  rfl

theorem star_parentOf (M k x : Nat) (hx : x < 3*M + 1) :
    parentOf (starTree M k) x = (starNode M k x).parent := by
  rw [parentOf, star_getElem M k x hx]
  rfl

theorem star_childrenOf (M k x : Nat) (hx : x < 3*M + 1) :
    childrenOf (starTree M k) x = (starNode M k x).children := by
  rw [childrenOf, star_getElem M k x hx]
  rfl

theorem star_cidOf (M k x : Nat) (hx : x < 3*M + 1) :
    cidOf (starTree M k) x = toString x := by
  rw [cidOf, star_getElem M k x hx]
  show (starNode M k x).concept_id = toString x
  rw [starNode]
  by_cases h1 : x = 0
  · rw [if_pos h1]
  · rw [if_neg h1]
    by_cases h2 : x ≤ M
    · rw [if_pos h2]
      by_cases h3 : M - k < x
      · rw [if_pos h3]
      · rw [if_neg h3]
    · rw [if_neg h2]

theorem star_root_children (M k : Nat) (hM : 1 ≤ M) :
    childrenOf (starTree M k) 0 =
      (List.range (M - k)).map (fun j => j + 1) ++
        (List.range k).flatMap (fun j => [3*M - 2*j - 1, 3*M - 2*j]) := by
  rw [star_childrenOf M k 0 (by omega)]
  rw [starNode, if_pos rfl]

theorem star_children_spine (M k j : Nat) (h1 : 1 ≤ j) (h2 : j ≤ M - k) :
    childrenOf (starTree M k) j = [M + 2*j - 1, M + 2*j] := by
  rw [star_childrenOf M k j (by omega)]
  rw [starNode, if_neg (by omega), if_pos (by omega), if_neg (by omega)]

theorem star_children_detached (M k j : Nat) (h1 : 1 ≤ j) (h2 : j ≤ M)
    (h3 : M - k < j) : childrenOf (starTree M k) j = [] := by
  rw [star_childrenOf M k j (by omega)]
  rw [starNode, if_neg (by omega), if_pos (by omega), if_pos (by omega)]

theorem star_children_leaf (M k x : Nat) (h1 : M < x) (h2 : x < 3*M + 1) :
    childrenOf (starTree M k) x = [] := by
  rw [star_childrenOf M k x h2]
  rw [starNode, if_neg (by omega), if_neg (by omega)]

theorem candidatesFrom_append (ops : TreeOps Inst) (t : ConceptTree) :
    ∀ (l1 l2 : List Nat) (i : Nat),
      candidatesFrom ops t i (l1 ++ l2) =
        candidatesFrom ops t i l1 ++ candidatesFrom ops t (i + l1.length) l2 := by
  intro l1
  induction l1 with
  | nil => intro l2 i; simp [candidatesFrom]
  | cons c0 rest ih =>
    intro l2 i
    simp only [List.cons_append, candidatesFrom, List.length_cons, List.append_eq]
    rw [ih l2 (i + 1), List.append_assoc]
    have harith : i + 1 + rest.length = i + (rest.length + 1) := by omega
    rw [harith]

theorem candidatesFrom_leaves (ops : TreeOps Inst) (t : ConceptTree) :
    ∀ (l : List Nat) (i : Nat), (∀ x ∈ l, childrenOf t x = []) →
      candidatesFrom ops t i l = [] := by
  intro l
  induction l with
  | nil => intro i _; rfl
  | cons c0 rest ih =>
    intro i h
    simp only [candidatesFrom]
    rw [if_pos (h c0 (List.mem_cons_self _ _)), List.nil_append]
    exact ih (i + 1) (fun x hx => h x (List.mem_cons_of_mem _ hx))

theorem star_candidates_A (M k : Nat) : ∀ m, m ≤ M - k → ∀ i,
    candidatesFrom starOps (starTree M k) i ((List.range m).map (fun j => j + 1)) =
      (List.range m).map (fun j => ((0:ℚ), i + j, j + 1)) := by
  intro m
  induction m with
  | zero => intro _ i; rfl
  | succ m ih =>
    intro hm i
    rw [List.range_succ, List.map_append, List.map_append]
    rw [candidatesFrom_append, ih (by omega) i]
    congr 1
    show candidatesFrom starOps (starTree M k)
      (i + ((List.range m).map (fun j => j + 1)).length) [m + 1] = [((0:ℚ), i + m, m + 1)]
    rw [List.length_map, List.length_range]
    simp only [candidatesFrom]
    rw [star_children_spine M k (m + 1) (by omega) (by omega)]
    rw [if_neg (by simp)]
    show ([(starOps.cu_for_split (starTree M k) (m + 1) -
      starOps.category_utility (starTree M k), i + m, m + 1)] ++ []) = _
    simp [starOps]

theorem star_candidates (M k : Nat) (hM : 1 ≤ M) (hkM : k ≤ M) :
    candidatesFrom starOps (starTree M k) 0 (childrenOf (starTree M k) 0) =
      (List.range (M - k)).map (fun j => ((0:ℚ), j, j + 1)) := by
  rw [star_root_children M k hM, candidatesFrom_append]
  rw [star_candidates_A M k (M - k) (Nat.le_refl _) 0]
  have hB : candidatesFrom starOps (starTree M k)
      (0 + ((List.range (M - k)).map (fun j => j + 1)).length)
      ((List.range k).flatMap (fun j => [3*M - 2*j - 1, 3*M - 2*j])) = [] := by
    apply candidatesFrom_leaves
    intro x hx
    obtain ⟨j, hj, hxj⟩ := List.mem_flatMap.mp hx
    have hjk : j < k := List.mem_range.mp hj
    rcases List.mem_cons.mp hxj with rfl | hxj2
    · exact star_children_leaf M k _ (by omega) (by omega)
    · rcases List.mem_singleton.mp hxj2 with rfl
      exact star_children_leaf M k _ (by omega) (by omega)
  rw [hB, List.append_nil]
  simp

theorem argmax_const_gain : ∀ m, 1 ≤ m →
    argmaxCand ((List.range m).map (fun j => ((0:ℚ), j, j + 1))) =
      some (0, m - 1, m) := by
  intro m
  induction m with
  | zero => intro h; omega
  | succ m ih =>
    intro _
    by_cases hm : 1 ≤ m
    · have ih2 := ih hm
      rw [argmaxCand] at ih2
      rw [List.range_succ, List.map_append]
      rw [argmaxCand, List.foldl_append, ih2]
      simp only [List.map_cons, List.map_nil, List.foldl_cons, List.foldl_nil]
      show argmaxStep (some (0, m - 1, m)) (0, m, m + 1) = some (0, m + 1 - 1, m + 1)
      simp only [argmaxStep]
      rw [if_pos (Or.inr ⟨by norm_num, by omega⟩)]
      simp
    · have hm0 : m = 0 := by omega
      subst hm0
      rfl

theorem star_selectSplit (M k : Nat) (hM : 1 ≤ M) (hk : k < M) :
    selectSplit starOps (starTree M k) = some (M - k) := by
  rw [selectSplit_eq_argmaxChild, argmaxChild,
    show (starTree M k).root = 0 from rfl, star_candidates M k hM (by omega),
    argmax_const_gain (M - k) (by omega)]
  rfl

theorem star_selectSplit_exhausted (M : Nat) (hM : 1 ≤ M) :
    selectSplit starOps (starTree M M) = none := by
  rw [selectSplit_eq_argmaxChild, argmaxChild,
    show (starTree M M).root = 0 from rfl, star_candidates M M hM (Nat.le_refl _)]
  simp [argmaxCand]

theorem nodes_getElem?_some (t : ConceptTree) (x : Nat) (hx : x < t.nodes.length) :
    t.nodes[x]? = some ⟨cidOf t x, parentOf t x, childrenOf t x⟩ := by
  simp [cidOf, parentOf, childrenOf, List.getElem?_eq_getElem hx]

theorem tree_ext (t1 t2 : ConceptTree) (hr : t1.root = t2.root)
    (hl : t1.nodes.length = t2.nodes.length)
    (hcid : ∀ x, x < t1.nodes.length → cidOf t1 x = cidOf t2 x)
    (hpar : ∀ x, x < t1.nodes.length → parentOf t1 x = parentOf t2 x)
    (hch : ∀ x, x < t1.nodes.length → childrenOf t1 x = childrenOf t2 x) :
    t1 = t2 := by
  have hnodes : t1.nodes = t2.nodes := by
    apply List.ext_getElem?
    intro x
    by_cases hx : x < t1.nodes.length
    · rw [nodes_getElem?_some t1 x hx, nodes_getElem?_some t2 x (hl ▸ hx),
        hcid x hx, hpar x hx, hch x hx]
    · rw [List.getElem?_eq_none (Nat.le_of_not_lt hx),
        List.getElem?_eq_none (by rw [← hl]; exact Nat.le_of_not_lt hx)]
  calc t1 = ⟨t1.nodes, t1.root⟩ := rfl
    _ = ⟨t2.nodes, t2.root⟩ := by rw [hnodes, hr]
    _ = t2 := rfl

theorem star_cs (M k : Nat) (hM : 1 ≤ M) (hk : k < M) :
    childrenOf (starTree M k) (M - k) = [3*M - 2*k - 1, 3*M - 2*k] := by
  rw [star_children_spine M k (M - k) (by omega) (Nat.le_refl _)]
  rw [show M + 2*(M - k) - 1 = 3*M - 2*k - 1 by omega,
    show M + 2*(M - k) = 3*M - 2*k by omega]

theorem star_split (M k : Nat) (hM : 1 ≤ M) (hk : k < M) :
    split (starTree M k) (M - k) = starTree M (k + 1) := by
  have hcs := star_cs M k hM hk
  have hcsN : ∀ y ∈ childrenOf (starTree M k) (M - k),
      y < (starTree M k).nodes.length := by
    intro y hy
    rw [hcs] at hy
    rw [starTree_length]
    rcases List.mem_cons.mp hy with rfl | hy2
    · omega
    · rcases List.mem_singleton.mp hy2 with rfl
      omega
  have hroot : (starTree M k).root < (starTree M k).nodes.length := by
    show 0 < (starTree M k).nodes.length
    rw [starTree_length]
    omega
  apply tree_ext
  · rfl
  · rw [split_nodes_length, starTree_length, starTree_length]
  · intro x hx
    rw [split_nodes_length, starTree_length] at hx
    rw [cidOf_split, star_cidOf M k x hx, star_cidOf M (k + 1) x hx]
  · intro x hx
    rw [split_nodes_length, starTree_length] at hx
    rw [parentOf_split _ _ _ hcsN, hcs, star_parentOf M (k + 1) x hx]
    by_cases h1 : x = M - k
    · rw [if_pos h1]
      subst h1
      have e1 : ¬ (M - k = 0) := by omega
      have e2 : M - k ≤ M := by omega
      have e3 : M - (k + 1) < M - k := by omega
      rw [starNode, if_neg e1, if_pos e2, if_pos e3]
    · rw [if_neg h1]
      by_cases h2 : x ∈ [3*M - 2*k - 1, 3*M - 2*k]
      · rw [if_pos h2]
        have hx2 : 3*M - 2*k - 1 ≤ x ∧ x ≤ 3*M - 2*k := by
          rcases List.mem_cons.mp h2 with rfl | h3
          · omega
          · rcases List.mem_singleton.mp h3 with rfl
            omega
        have e1 : ¬ (x = 0) := by omega
        have e2 : ¬ (x ≤ M) := by omega
        have e3 : M - (k + 1) < (x - M + 1) / 2 := by omega
        rw [starNode, if_neg e1, if_neg e2, if_pos e3]
        rfl
      · rw [if_neg h2]
        rw [star_parentOf M k x hx]
        by_cases hx0 : x = 0
        · subst hx0
          rw [starNode, starNode, if_pos rfl, if_pos rfl]
        · by_cases hxM : x ≤ M
          · by_cases h3 : M - k < x
            · have e3 : M - (k + 1) < x := by omega
              rw [starNode, if_neg hx0, if_pos hxM, if_pos h3,
                starNode, if_neg hx0, if_pos hxM, if_pos e3]
            · have e3 : ¬ (M - (k + 1) < x) := by omega
              rw [starNode, if_neg hx0, if_pos hxM, if_neg h3,
                starNode, if_neg hx0, if_pos hxM, if_neg e3]
          · have hj : (x - M + 1) / 2 ≠ M - k := by
              intro hjeq
              apply h2
              have hxi : x = 3*M - 2*k - 1 ∨ x = 3*M - 2*k := by omega
              rcases hxi with rfl | rfl
              · exact List.mem_cons_self _ _
              · exact List.mem_cons_of_mem _ (List.mem_singleton.mpr rfl)
            by_cases h4 : M - k < (x - M + 1) / 2
            · have e4 : M - (k + 1) < (x - M + 1) / 2 := by omega
              rw [starNode, if_neg hx0, if_neg hxM,
                starNode, if_neg hx0, if_neg hxM, if_pos h4, if_pos e4]
            · have e4 : ¬ (M - (k + 1) < (x - M + 1) / 2) := by omega
              rw [starNode, if_neg hx0, if_neg hxM,
                starNode, if_neg hx0, if_neg hxM, if_neg h4, if_neg e4]
  · intro x hx
    rw [split_nodes_length, starTree_length] at hx
    rw [childrenOf_split _ _ _ hroot, star_childrenOf M (k + 1) x hx]
    by_cases h1 : x = M - k
    · rw [if_pos h1]
      subst h1
      have e1 : ¬ (M - k = 0) := by omega
      have e2 : M - k ≤ M := by omega
      have e3 : M - (k + 1) < M - k := by omega
      rw [starNode, if_neg e1, if_pos e2, if_pos e3]
    · rw [if_neg h1]
      by_cases hx0 : x = (starTree M k).root
      · rw [if_pos hx0]
        have hx00 : x = 0 := hx0
        subst hx00
        rw [show (starTree M k).root = 0 from rfl, star_root_children M k hM, hcs]
        rw [starNode, if_pos rfl]
        have hMk : M - k = (M - k - 1) + 1 := by omega
        rw [hMk, List.range_succ, List.map_append]
        simp only [List.map_cons, List.map_nil]
        rw [List.append_assoc, List.erase_append_right _ (by
          intro hmem
          obtain ⟨j, hj, hje⟩ := List.mem_map.mp hmem
          have := List.mem_range.mp hj
          omega)]
        rw [show (M - k - 1) + 1 = M - k by omega]
        rw [List.singleton_append, List.erase_cons_head]
        rw [List.range_succ, List.flatMap_append]
        rw [show M - (k + 1) = M - k - 1 by omega]
        simp only [List.flatMap_cons, List.flatMap_nil, List.append_nil,
          List.append_assoc]
      · rw [if_neg hx0]
        have hx00 : ¬ (x = 0) := hx0
        rw [star_childrenOf M k x hx]
        by_cases hxM : x ≤ M
        · by_cases h3 : M - k < x
          · have e3 : M - (k + 1) < x := by omega
            rw [starNode, if_neg hx00, if_pos hxM, if_pos h3,
              starNode, if_neg hx00, if_pos hxM, if_pos e3]
          · have e3 : ¬ (M - (k + 1) < x) := by omega
            rw [starNode, if_neg hx00, if_pos hxM, if_neg h3,
              starNode, if_neg hx00, if_pos hxM, if_neg e3]
        · rw [starNode, if_neg hx00, if_neg hxM,
            starNode, if_neg hx00, if_neg hxM]

theorem star_labels_lt (M k : Nat) (hM : 1 ≤ M) (hk : k < M) :
    labelsOf (starTree M k) [M + 1] = ["Concept" ++ toString 1] := by
  have h1 : parentOf (starTree M k) (M + 1) = some 1 := by
    rw [star_parentOf M k (M + 1) (by omega)]
    rw [starNode, if_neg (by omega : ¬ (M + 1 = 0)), if_neg (by omega : ¬ (M + 1 ≤ M))]
    show (if M - k < (M + 1 - M + 1) / 2 then some 0 else some ((M + 1 - M + 1) / 2)) = _
    rw [if_neg (by omega)]
    congr 1
    omega
  have h2 : parentOf (starTree M k) 1 = some 0 := by
    rw [star_parentOf M k 1 (by omega)]
    rw [starNode, if_neg (by omega : ¬ (1 = 0)), if_pos (by omega : 1 ≤ M),
      if_neg (by omega : ¬ (M - k < 1))]
  have h3 : parentOf (starTree M k) 0 = none := by
    rw [star_parentOf M k 0 (by omega)]
    rw [starNode, if_pos rfl]
  have hwalk : walkUp (starTree M k) (starTree M k).nodes.length (M + 1) = 1 := by
    rw [starTree_length]
    show walkUp (starTree M k) (3*M + 1) (M + 1) = 1
    rw [show (3*M + 1) = (3*M - 1) + 1 + 1 by omega]
    simp only [walkUp, h1, h2, h3]
  rw [labelsOf, List.map_cons, List.map_nil, hwalk,
    star_cidOf M k 1 (by omega)]

theorem star_labels_done (M : Nat) (hM : 1 ≤ M) :
    labelsOf (starTree M M) [M + 1] = ["Concept" ++ toString (M + 1)] := by
  have h1 : parentOf (starTree M M) (M + 1) = some 0 := by
    rw [star_parentOf M M (M + 1) (by omega)]
    rw [starNode, if_neg (by omega : ¬ (M + 1 = 0)), if_neg (by omega : ¬ (M + 1 ≤ M))]
    show (if M - M < (M + 1 - M + 1) / 2 then some 0 else some ((M + 1 - M + 1) / 2)) = _
    rw [if_pos (by omega)]
  have h3 : parentOf (starTree M M) 0 = none := by
    rw [star_parentOf M M 0 (by omega)]
    rw [starNode, if_pos rfl]
  have hwalk : walkUp (starTree M M) (starTree M M).nodes.length (M + 1) = M + 1 := by
    rw [starTree_length]
    show walkUp (starTree M M) (3*M + 1) (M + 1) = M + 1
    rw [show (3*M + 1) = 3*M + 1 by omega]
    simp only [walkUp, h1, h3]
  rw [labelsOf, List.map_cons, List.map_nil, hwalk,
    star_cidOf M M (M + 1) (by omega)]

theorem cluster_iter_go_succ_none (ops : TreeOps Inst) (refs : List Nat) (ms : Nat)
    (t : ConceptTree) (n fuel : Nat) (hsel : selectSplit ops t = none) :
    (cluster_iter_go ops refs ms t n (fuel + 1)).2 =
      (if ms ≤ n then [labelsOf t refs] else []) := by
  simp only [cluster_iter_go, hsel]

theorem cluster_iter_go_succ_some (ops : TreeOps Inst) (refs : List Nat) (ms : Nat)
    (t : ConceptTree) (n fuel c : Nat) (hsel : selectSplit ops t = some c) :
    (cluster_iter_go ops refs ms t n (fuel + 1)).2 =
      (if ms ≤ n then [labelsOf t refs] else []) ++
        (cluster_iter_go ops refs ms (split t c) (n + 1) fuel).2 := by
  simp only [cluster_iter_go, hsel]

theorem star_go (M : Nat) (hM : 1 ≤ M) :
    ∀ (fuel k n : Nat), k ≤ M → 1 ≤ n →
      (cluster_iter_go starOps [M + 1] 1 (starTree M k) n fuel).2 =
        (List.range (min fuel (M - k + 1))).map
          (fun j => labelsOf (starTree M (k + j)) [M + 1]) := by
  intro fuel
  induction fuel with
  | zero => intro k n _ _; simp [cluster_iter_go]
  | succ fuel ih =>
    intro k n hk hn
    cases hsel : selectSplit starOps (starTree M k) with
    | none =>
      have hkM : k = M := by
        by_contra hne
        rw [star_selectSplit M k hM (by omega)] at hsel
        exact Option.noConfusion hsel
      rw [cluster_iter_go_succ_none _ _ _ _ _ _ hsel, if_pos hn]
      have hmin : min (fuel + 1) (M - k + 1) = 0 + 1 := by omega
      rw [hmin, List.range_succ, List.range_zero, List.nil_append, List.map_cons,
        List.map_nil]
      simp
    | some c =>
      have hkM : k < M := by
        by_contra hge
        have hke : k = M := by omega
        rw [hke, star_selectSplit_exhausted M hM] at hsel
        exact Option.noConfusion hsel
      have hc : c = M - k := by
        rw [star_selectSplit M k hM hkM] at hsel
        exact (Option.some.inj hsel).symm
      subst hc
      rw [cluster_iter_go_succ_some _ _ _ _ _ _ _ hsel, star_split M k hM hkM,
        if_pos hn, ih (k + 1) (n + 1) (by omega) (by omega)]
      have hmin : min (fuel + 1) (M - k + 1) = min fuel (M - (k + 1) + 1) + 1 := by
        omega
      rw [hmin, List.range_succ_eq_map, List.map_cons, List.map_map]
      rw [List.singleton_append]
      have hfun : (fun j => labelsOf (starTree M (k + 1 + j)) [M + 1]) =
          ((fun j => labelsOf (starTree M (k + j)) [M + 1]) ∘ Nat.succ) := by
        funext j
        show labelsOf (starTree M (k + 1 + j)) [M + 1] =
          labelsOf (starTree M (k + (j + 1))) [M + 1]
        rw [show k + 1 + j = k + (j + 1) by omega]
      rw [hfun]
      simp

theorem adoptLoop_all (k : Int) :
    ∀ (seq : List (List String)) (acc : List String),
      (∀ c ∈ seq, ¬ ((c.toFinset.card : Int) > k)) →
      adoptLoop k acc seq = seq.getLastD acc := by
  intro seq
  induction seq with
  | nil => intro acc _; rfl
  | cons c rest ih =>
    intro acc h
    show (if (c.toFinset.card : Int) > k then acc else adoptLoop k c rest) = _
    rw [if_neg (h c (List.mem_cons_self _ _)), ih c
      (fun x hx => h x (List.mem_cons_of_mem _ hx)), List.getLastD_cons]

theorem getLastD_range_map {β : Type} (n : Nat) (hn : 1 ≤ n) (f : Nat → β) (d : β) :
    ((List.range n).map f).getLastD d = f (n - 1) := by
  obtain ⟨m, rfl⟩ : ∃ m, n = m + 1 := ⟨n - 1, by omega⟩
  rw [List.range_succ, List.map_append, List.map_cons, List.map_nil,
    List.getLastD_concat]
  simp

theorem star_cluster_iter (M : Nat) (hM : 1 ≤ M) (xs : Int) (hxs : 1 ≤ xs) :
    cluster_iter starOps (starTree M 0) [M + 1] 1 xs false =
      Except.ok ((List.range (min xs.toNat (M + 1))).map
        (fun j => labelsOf (starTree M j) [M + 1])) := by
  rw [cluster_iter_ok starOps (starTree M 0) [M + 1] 1 xs (by norm_num) hxs false]
  show Except.ok ((cluster_iter_go starOps [M + 1] 1 (starTree M 0) 1 xs.toNat).2) = _
  rw [star_go M hM xs.toNat 0 1 (by omega) (Nat.le_refl 1)]
  congr 1
  have hfun : (fun j => labelsOf (starTree M (0 + j)) [M + 1]) =
      (fun j => labelsOf (starTree M j) [M + 1]) := by
    funext j
    rw [Nat.zero_add]
  rw [hfun, Nat.sub_zero]

theorem star_k_cluster_capped (M : Nat) (hM : 100000 ≤ M) :
    k_cluster starOps (starTree M 0) [M + 1] 5 false =
      Except.ok ["Concept" ++ toString 1] := by
  rw [k_cluster, if_neg (by norm_num)]
  rw [star_cluster_iter M (by omega) 100000 (by norm_num)]
  show Except.ok (adoptLoop 5 _ _) = _
  have hmin : min (100000 : Int).toNat (M + 1) = 100000 := by
    rw [show (100000 : Int).toNat = 100000 from rfl]
    omega
  rw [hmin]
  have hseq : (List.range 100000).map (fun j => labelsOf (starTree M j) [M + 1]) =
      (List.range 100000).map (fun _ => ["Concept" ++ toString 1]) := by
    apply List.map_congr_left
    intro j hj
    have hjM : j < M := by
      have := List.mem_range.mp hj
      omega
    exact star_labels_lt M j (by omega) hjM
  rw [hseq]
  rw [adoptLoop_all 5 _ _ (by
    intro c hc
    obtain ⟨j, _, hje⟩ := List.mem_map.mp hc
    rw [← hje]
    norm_num)]
  rw [getLastD_range_map 100000 (by norm_num)]

theorem star_k_cluster_unbounded (M : Nat) (hM : 1 ≤ M) :
    k_cluster_unbounded starOps (starTree M 0) [M + 1] 5 false =
      Except.ok ["Concept" ++ toString (M + 1)] := by
  rw [k_cluster_unbounded, if_neg (by norm_num)]
  have hxs : (1 : Int) ≤ ((starTree M 0).nodes.length : Int) + 1 := by
    omega
  rw [star_cluster_iter M hM (((starTree M 0).nodes.length : Int) + 1) hxs]
  show Except.ok (adoptLoop 5 _ _) = _
  have hmin : min (((starTree M 0).nodes.length : Int) + 1).toNat (M + 1) = M + 1 := by
    rw [starTree_length]
    omega
  rw [hmin]
  rw [adoptLoop_all 5 _ _ (by
    intro c hc
    obtain ⟨j, hj, hje⟩ := List.mem_map.mp hc
    rw [← hje]
    show ¬ (((labelsOf (starTree M j) [M + 1]).toFinset.card : Int) > 5)
    rw [labelsOf, List.map_cons, List.map_nil]
    norm_num)]
  rw [getLastD_range_map (M + 1) (by omega)]
  rw [show M + 1 - 1 = M by omega]
  rw [star_labels_done M hM]

/-! ### Heap-level facts about cluster_iter_impl -/

theorem cluster_iter_impl_frame (ops : TreeOps Inst) (store : List ConceptTree)
    (treeRef : Nat) (instances : List Inst) (ms xs : Int) (mod : Bool)
    (href : treeRef < store.length) :
    (cluster_iter_impl ops store treeRef instances ms xs mod).1.getD treeRef default =
      store.getD treeRef default := by
  rw [cluster_iter_impl]
  by_cases h1 : ms < 1
  · rw [if_pos h1]
  · rw [if_neg h1]
    by_cases h2 : ms > xs
    · rw [if_pos h2]
    · rw [if_neg h2]
      simp only [List.getD_eq_getElem?_getD, List.getElem?_append]
      rw [if_pos href]

theorem cluster_iter_impl_output (ops : TreeOps Inst) (store : List ConceptTree)
    (treeRef : Nat) (instances : List Inst) (ms xs : Int) (mod : Bool) :
    (cluster_iter_impl ops store treeRef instances ms xs mod).2 =
      cluster_iter ops (store.getD treeRef default) instances ms xs mod := by
  rw [cluster_iter_impl, cluster_iter]
  by_cases h1 : ms < 1
  · rw [if_pos h1, if_pos h1]
  · rw [if_neg h1, if_neg h1]
    by_cases h2 : ms > xs
    · rw [if_pos h2, if_pos h2]
    · rw [if_neg h2, if_neg h2]

/-! ### A small well-formed concrete tree used to instantiate the theorems -/


theorem wTree_WF : WF wTree :=
  ⟨by decide, by decide, by decide, by decide, by decide, by decide, by decide,
    by decide, ⟨fun i => [0, 1, 1, 2, 2].getD i 0, by decide, by decide⟩⟩

/-! ### Claim theorems -/

/-- C1: every clustering emitted by `cluster_iter` labels each instance with
"Concept" ++ the concept id of that instance's depth-1 ancestor in the
then-current state of the copied tree: starting from the leaf the instance was
fitted into, parent links are followed until the node whose parent is the
root, and the vector has one label per instance, in input order. -/
theorem claim_C1 (ops : TreeOps Inst) (tree : ConceptTree) (instances : List Inst)
    (ms xs : Int) (mod : Bool) (h1 : 1 ≤ ms) (h2 : ms ≤ xs)
    (hwf : WF (fitPhase ops (deepcopy tree) instances mod).1)
    (hrefs : ∀ r ∈ (fitPhase ops (deepcopy tree) instances mod).2,
      r < (fitPhase ops (deepcopy tree) instances mod).1.nodes.length ∧
      parentOf (fitPhase ops (deepcopy tree) instances mod).1 r ≠ none ∧
      childrenOf (fitPhase ops (deepcopy tree) instances mod).1 r = []) :
    ∃ out, cluster_iter ops tree instances ms xs mod = Except.ok out ∧
      ∀ v ∈ out, ∃ t2,
        SplitReach ops (fitPhase ops (deepcopy tree) instances mod).1 t2 ∧
        v.length = instances.length ∧
        ∀ i, i < instances.length → ∃ a,
          Reaches t2 ((fitPhase ops (deepcopy tree) instances mod).2.getD i 0) a ∧
          parentOf t2 a = some t2.root ∧
          v.getD i "" = "Concept" ++ cidOf t2 a := by
  refine ⟨_, cluster_iter_ok ops tree instances ms xs h1 h2 mod, ?_⟩
  intro v hv
  obtain ⟨t2, hr, hl, hp⟩ := go_c1 ops (fitPhase ops (deepcopy tree) instances mod).2
    ms.toNat xs.toNat 1 (fitPhase ops (deepcopy tree) instances mod).1 hwf hrefs v hv
  refine ⟨t2, hr, by rw [hl, fitPhase_length], ?_⟩
  intro i hi
  exact hp i (by rw [fitPhase_length]; exact hi)

/-- Witness for C1 on a concrete five-node tree. -/
theorem claim_C1_witness :
    ∃ out, cluster_iter starOps wTree [3, 4, 2] 1 2 false = Except.ok out ∧
      ∀ v ∈ out, ∃ t2,
        SplitReach starOps (fitPhase starOps (deepcopy wTree) [3, 4, 2] false).1 t2 ∧
        v.length = ([3, 4, 2] : List Nat).length ∧
        ∀ i, i < ([3, 4, 2] : List Nat).length → ∃ a,
          Reaches t2 ((fitPhase starOps (deepcopy wTree) [3, 4, 2] false).2.getD i 0) a ∧
          parentOf t2 a = some t2.root ∧
          v.getD i "" = "Concept" ++ cidOf t2 a :=
  claim_C1 starOps wTree [3, 4, 2] 1 2 false (by norm_num) (by norm_num)
    wTree_WF (by decide)

/-- C2: at each split step the driver selects, among the root's children that
themselves have children, the one maximizing `cu_for_split(child) -
category_utility()`, ties broken towards the larger index in the root's child
list (maximum of the key `(utility_gain, child_index)`), and that child is
then passed to the tree's split operation before the loop continues. -/
theorem claim_C2 (ops : TreeOps Inst) (t : ConceptTree) :
    selectSplit ops t = argmaxChild ops t ∧
    ∀ (refs : List Nat) (ms n fuel c : Nat), selectSplit ops t = some c →
      (cluster_iter_go ops refs ms t n (fuel + 1)).2 =
        (if ms ≤ n then [labelsOf t refs] else []) ++
          (cluster_iter_go ops refs ms (split t c) (n + 1) fuel).2 :=
  ⟨selectSplit_eq_argmaxChild ops t,
    fun refs ms n fuel c h => cluster_iter_go_succ_some ops refs ms t n fuel c h⟩

/-- Witness for C2 on the concrete tree: node 1 is the selected child. -/
theorem claim_C2_witness :
    (selectSplit starOps wTree = argmaxChild starOps wTree) ∧
    (cluster_iter_go starOps [2] 1 wTree 1 (0 + 1)).2 =
      (if 1 ≤ 1 then [labelsOf wTree [2]] else []) ++
        (cluster_iter_go starOps [2] 1 (split wTree 1) (1 + 1) 0).2 :=
  ⟨(claim_C2 starOps wTree).1, (claim_C2 starOps wTree).2 [2] 1 1 0 1 (by decide)⟩

/-- C3: for `k < 2` `k_cluster` fails with the source's `ValueError` message;
for every tree, instance list and `k ≥ 2` it succeeds and the returned
clustering has at most `k` distinct labels. -/
theorem claim_C3 (ops : TreeOps Inst) (tree : ConceptTree) (instances : List Inst)
    (k : Int) (mod : Bool) :
    (k < 2 → k_cluster ops tree instances k mod = Except.error
      "k must be >=2, all nodes in Cobweb are guaranteed to have at least 2 children.") ∧
    (2 ≤ k → ∃ out, k_cluster ops tree instances k mod = Except.ok out ∧
      (out.toFinset.card : Int) ≤ k) := by
  constructor
  · intro hk
    rw [k_cluster, if_pos hk]
  · intro hk
    obtain ⟨seq, _, hkc⟩ := k_cluster_characterization ops tree instances k mod (by omega)
    refine ⟨_, hkc, ?_⟩
    apply getLastD_takeWhile_card
    have hone := map_const_card_le_one instances ("Concept" ++ cidOf tree tree.root)
    omega

/-- Witness for C3 at `k = 3` on the concrete tree. -/
theorem claim_C3_witness :
    (2 : Int) ≤ 3 ∧ ∃ out, k_cluster starOps wTree [3, 4, 2] 3 false = Except.ok out ∧
      (out.toFinset.card : Int) ≤ 3 :=
  ⟨by norm_num, (claim_C3 starOps wTree [3, 4, 2] 3 false).2 (by norm_num)⟩

/-- C4: whenever `1 ≤ minsplit ≤ maxsplit`, `cluster_iter` succeeds, yields at
most `maxsplit - minsplit + 1` clusterings, and every yielded clustering has
exactly `len(instances)` entries. -/
theorem claim_C4 (ops : TreeOps Inst) (tree : ConceptTree) (instances : List Inst)
    (ms xs : Int) (mod : Bool) (h1 : 1 ≤ ms) (h2 : ms ≤ xs) :
    ∃ out, cluster_iter ops tree instances ms xs mod = Except.ok out ∧
      (out.length : Int) ≤ xs - ms + 1 ∧
      ∀ v ∈ out, v.length = instances.length := by
  refine ⟨_, cluster_iter_ok ops tree instances ms xs h1 h2 mod, ?_, ?_⟩
  · have hb := go_out_length ops (fitPhase ops (deepcopy tree) instances mod).2 ms.toNat
      xs.toNat 1 (fitPhase ops (deepcopy tree) instances mod).1
    omega
  · intro v hv
    rw [← fitPhase_length ops (deepcopy tree) instances mod]
    exact go_out_each_length ops _ ms.toNat xs.toNat 1 _ v hv

/-- Witness for C4 at `minsplit = 1`, `maxsplit = 3` on the concrete tree. -/
theorem claim_C4_witness :
    (1 : Int) ≤ 1 ∧ (1 : Int) ≤ 3 ∧
    ∃ out, cluster_iter starOps wTree [3, 4, 2] 1 3 false = Except.ok out ∧
      (out.length : Int) ≤ 3 - 1 + 1 ∧
      ∀ v ∈ out, v.length = ([3, 4, 2] : List Nat).length :=
  ⟨by norm_num, by norm_num,
    claim_C4 starOps wTree [3, 4, 2] 1 3 false (by norm_num) (by norm_num)⟩

/-- C5: along the sequence produced by `cluster_iter`, the number of distinct
labels is monotonically non-decreasing: if position `j` of the output is at
least position `i`, the clustering at `j` has at least as many distinct labels
as the one at `i`. -/
theorem claim_C5 (ops : TreeOps Inst) (tree : ConceptTree) (instances : List Inst)
    (ms xs : Int) (mod : Bool) (h1 : 1 ≤ ms) (h2 : ms ≤ xs)
    (hwf : WF (fitPhase ops (deepcopy tree) instances mod).1)
    (hrefs : ∀ r ∈ (fitPhase ops (deepcopy tree) instances mod).2,
      r < (fitPhase ops (deepcopy tree) instances mod).1.nodes.length) :
    ∃ out, cluster_iter ops tree instances ms xs mod = Except.ok out ∧
      ∀ i j, i ≤ j → j < out.length →
        (out.getD i []).toFinset.card ≤ (out.getD j []).toFinset.card := by
  refine ⟨_, cluster_iter_ok ops tree instances ms xs h1 h2 mod, ?_⟩
  have hpw := go_counts_pairwise ops (fitPhase ops (deepcopy tree) instances mod).2
    ms.toNat xs.toNat 1 (fitPhase ops (deepcopy tree) instances mod).1 hwf hrefs
  intro i j hij hj
  rcases Nat.eq_or_lt_of_le hij with rfl | hlt
  · exact Nat.le_refl _
  · have hge := List.pairwise_iff_getElem.mp hpw i j (lt_trans hlt hj) hj hlt
    rw [List.getD_eq_getElem?_getD, List.getElem?_eq_getElem (lt_trans hlt hj),
      List.getD_eq_getElem?_getD, List.getElem?_eq_getElem hj]
    simpa using hge

/-- Witness for C5 on the concrete tree. -/
theorem claim_C5_witness :
    (1 : Int) ≤ 1 ∧ (1 : Int) ≤ 3 ∧
    ∃ out, cluster_iter starOps wTree [3, 4, 2] 1 3 false = Except.ok out ∧
      ∀ i j, i ≤ j → j < out.length →
        (out.getD i []).toFinset.card ≤ (out.getD j []).toFinset.card :=
  ⟨by norm_num, by norm_num,
    claim_C5 starOps wTree [3, 4, 2] 1 3 false (by norm_num) (by norm_num)
      wTree_WF (by decide)⟩

/-- C6: invalid arguments fail fast with the source's error message, before
the deep copy or any tree mutation: `cluster_iter` rejects `minsplit < 1` and
`maxsplit < minsplit` leaving the caller's store untouched (heap model), and
`k_cluster` rejects `k < 2`. -/
theorem claim_C6 (ops : TreeOps Inst) (store : List ConceptTree) (treeRef : Nat)
    (tree : ConceptTree) (instances : List Inst) (ms xs k : Int) (mod : Bool) :
    (ms < 1 → cluster_iter_impl ops store treeRef instances ms xs mod =
      (store, Except.error "minsplit must be >= 1")) ∧
    (1 ≤ ms → xs < ms → cluster_iter_impl ops store treeRef instances ms xs mod =
      (store, Except.error "maxsplit must be >= minsplit")) ∧
    (ms < 1 → cluster_iter ops tree instances ms xs mod =
      Except.error "minsplit must be >= 1") ∧
    (1 ≤ ms → xs < ms → cluster_iter ops tree instances ms xs mod =
      Except.error "maxsplit must be >= minsplit") ∧
    (k < 2 → k_cluster ops tree instances k mod = Except.error
      "k must be >=2, all nodes in Cobweb are guaranteed to have at least 2 children.") := by
  refine ⟨?_, ?_, ?_, ?_, ?_⟩
  · intro h
    rw [cluster_iter_impl, if_pos h]
  · intro hA hB
    rw [cluster_iter_impl, if_neg (not_lt.mpr hA), if_pos hB]
  · intro h
    exact cluster_iter_error_minsplit ops tree instances ms xs mod h
  · intro hA hB
    exact cluster_iter_error_maxsplit ops tree instances ms xs mod (not_lt.mpr hA) hB
  · intro hk
    rw [k_cluster, if_pos hk]

/-- Witness for C6 at `minsplit = 0` and `k = 1`. -/
theorem claim_C6_witness :
    (0 : Int) < 1 ∧
    cluster_iter_impl starOps [wTree] 0 [3] 0 5 false =
      ([wTree], Except.error "minsplit must be >= 1") ∧
    (1 : Int) < 2 ∧
    k_cluster starOps wTree [3] 1 false = Except.error
      "k must be >=2, all nodes in Cobweb are guaranteed to have at least 2 children." :=
  ⟨by norm_num, (claim_C6 starOps [wTree] 0 wTree [3] 0 5 1 false).1 (by norm_num),
    by norm_num, (claim_C6 starOps [wTree] 0 wTree [3] 0 5 1 false).2.2.2.2 (by norm_num)⟩

/-- C7 (amended): `k_cluster` consumes the split sequence produced by
`cluster_iter` with `minsplit = 1` and the source's default cap
`maxsplit = 100000` — not an unbounded stream.  For `k ≥ 2` it keeps adopting
clusterings whose distinct-label count is ≤ k; it returns the last adopted
clustering (the root labeling if none was adopted) once the count exceeds `k`
or the capped sequence ends. -/
theorem claim_C7 (ops : TreeOps Inst) (tree : ConceptTree) (instances : List Inst)
    (k : Int) (mod : Bool) (hk : 2 ≤ k) :
    ∃ seq, cluster_iter ops tree instances 1 100000 mod = Except.ok seq ∧
      k_cluster ops tree instances k mod = Except.ok
        ((seq.takeWhile (fun c => decide ((c.toFinset.card : Int) ≤ k))).getLastD
          (instances.map (fun _ => "Concept" ++ cidOf tree tree.root))) :=
  k_cluster_characterization ops tree instances k mod (by omega)

/-- Witness for C7 at `k = 5` on the concrete tree. -/
theorem claim_C7_witness :
    (2 : Int) ≤ 5 ∧
    ∃ seq, cluster_iter starOps wTree [3, 4, 2] 1 100000 false = Except.ok seq ∧
      k_cluster starOps wTree [3, 4, 2] 5 false = Except.ok
        ((seq.takeWhile (fun c => decide ((c.toFinset.card : Int) ≤ 5))).getLastD
          (([3, 4, 2] : List Nat).map (fun _ => "Concept" ++ cidOf wTree wTree.root))) :=
  ⟨by norm_num, claim_C7 starOps wTree [3, 4, 2] 5 false (by norm_num)⟩

/-- Counterexample to C7 as stated: on a star of 100000 sibling pairs,
`k_cluster` (whose driver is capped at the default `maxsplit = 100000`) stops
one split short of exhausting the tree and returns a different clustering than
the spec's unbounded-maxsplit selector does. -/
theorem claim_C7_counterexample :
    k_cluster starOps (starTree 100000 0) [100000 + 1] 5 false ≠
      k_cluster_unbounded starOps (starTree 100000 0) [100000 + 1] 5 false := by
  rw [star_k_cluster_capped 100000 (by norm_num),
    star_k_cluster_unbounded 100000 (by norm_num)]
  intro h
  have h2 : ["Concept" ++ toString 1] = ["Concept" ++ toString (100000 + 1)] := by
    injection h
  exact absurd h2 (by decide)

/-- C8: for every tree and non-empty instance list, `depth_labels` returns
exactly `max_depth` clusterings (the longest leaf-to-root chain over the
fitted instances), each of length `len(instances)`; an instance whose own
chain is shorter has its deepest actual label (its leaf's label) repeated at
every remaining deeper level, and every full chain ends at the root's label. -/
theorem claim_C8 (ops : TreeOps Inst) (t : ConceptTree) (instances : List Inst)
    (mod : Bool) (hne : instances ≠ [])
    (hwf : WF (fitPhase ops t instances mod).1)
    (honly : ∀ x, x < (fitPhase ops t instances mod).1.nodes.length →
      parentOf (fitPhase ops t instances mod).1 x = none →
      x = (fitPhase ops t instances mod).1.root)
    (hrefs : ∀ r ∈ (fitPhase ops t instances mod).2,
      r < (fitPhase ops t instances mod).1.nodes.length) :
    ∃ out, depth_labels ops t instances mod = some out ∧
      out.length = maxDepthOf (chainsOf ops t instances mod).2 ∧
      (∀ row ∈ out, row.length = instances.length) ∧
      (∀ i d, i < instances.length →
        ((chainsOf ops t instances mod).2.getD i []).length ≤ d →
        d < maxDepthOf (chainsOf ops t instances mod).2 →
        (out.getD d []).getD i "" =
          "Concept" ++ cidOf (fitPhase ops t instances mod).1
            ((fitPhase ops t instances mod).2.getD i 0)) ∧
      (∀ i, i < instances.length →
        ((chainsOf ops t instances mod).2.getD i []).getLastD "" =
          "Concept" ++ cidOf (fitPhase ops t instances mod).1
            (fitPhase ops t instances mod).1.root) := by
  obtain ⟨out, ho, hlen, hrow, hpad⟩ := depth_labels_spec ops t instances mod hne
  exact ⟨out, ho, hlen, hrow, hpad, chains_reach_root ops t instances mod hwf honly hrefs⟩

/-- Witness for C8 on the concrete tree. -/
theorem claim_C8_witness :
    ∃ out, depth_labels starOps wTree [3, 4, 2] false = some out ∧
      out.length = maxDepthOf (chainsOf starOps wTree [3, 4, 2] false).2 ∧
      (∀ row ∈ out, row.length = ([3, 4, 2] : List Nat).length) ∧
      (∀ i d, i < ([3, 4, 2] : List Nat).length →
        ((chainsOf starOps wTree [3, 4, 2] false).2.getD i []).length ≤ d →
        d < maxDepthOf (chainsOf starOps wTree [3, 4, 2] false).2 →
        (out.getD d []).getD i "" =
          "Concept" ++ cidOf (fitPhase starOps wTree [3, 4, 2] false).1
            ((fitPhase starOps wTree [3, 4, 2] false).2.getD i 0)) ∧
      (∀ i, i < ([3, 4, 2] : List Nat).length →
        ((chainsOf starOps wTree [3, 4, 2] false).2.getD i []).getLastD "" =
          "Concept" ++ cidOf (fitPhase starOps wTree [3, 4, 2] false).1
            (fitPhase starOps wTree [3, 4, 2] false).1.root) :=
  claim_C8 starOps wTree [3, 4, 2] false (by decide) wTree_WF (by decide) (by decide)

/-- C9: `cluster_iter` never mutates the caller's input tree — in the heap
model the caller's cell is unchanged by a run — and, consequently, a second
call on the post-run store with the same arguments returns the same result as
the first. -/
theorem claim_C9 (ops : TreeOps Inst) (store : List ConceptTree) (treeRef : Nat)
    (instances : List Inst) (ms xs : Int) (mod : Bool) (href : treeRef < store.length) :
    (cluster_iter_impl ops store treeRef instances ms xs mod).1.getD treeRef default =
      store.getD treeRef default ∧
    (cluster_iter_impl ops
        (cluster_iter_impl ops store treeRef instances ms xs mod).1 treeRef
        instances ms xs mod).2 =
      (cluster_iter_impl ops store treeRef instances ms xs mod).2 := by
  refine ⟨cluster_iter_impl_frame ops store treeRef instances ms xs mod href, ?_⟩
  rw [cluster_iter_impl_output, cluster_iter_impl_output,
    cluster_iter_impl_frame ops store treeRef instances ms xs mod href]

/-- Witness for C9 on a one-cell store. -/
theorem claim_C9_witness :
    (0 : Nat) < ([wTree] : List ConceptTree).length ∧
    ((cluster_iter_impl starOps [wTree] 0 [3] 1 2 false).1.getD 0 default =
      ([wTree] : List ConceptTree).getD 0 default ∧
    (cluster_iter_impl starOps
        (cluster_iter_impl starOps [wTree] 0 [3] 1 2 false).1 0 [3] 1 2 false).2 =
      (cluster_iter_impl starOps [wTree] 0 [3] 1 2 false).2) :=
  ⟨by decide, claim_C9 starOps [wTree] 0 [3] 1 2 false (by decide)⟩

/-- C10: called with an empty instance list, `depth_labels` does not return an
empty list of clusterings but fails (the transposition loop indexes the first
instance's label list, an `IndexError`, modelled as `none`). -/
theorem claim_C10 (ops : TreeOps Inst) (t : ConceptTree) (mod : Bool) :
    depth_labels ops t [] mod = none := by
  cases mod <;> rfl
